import Mathlib

/-!
# Verification of the jsw red-black tree engine (`src/rbtree-ec.c`)

This file is a shallow embedding of the red-black tree library in
`src/rbtree-ec.c` (insertion, erasure, search and the stack-based cursor),
together with theorems settling the specification claims.

Modelling conventions:

* A C node (`jsw_rbnode_t`) carries a color bit `red`, two child pointers
  `link[0]` / `link[1]`, and an embedded payload whose ordering-relevant part
  is the integer field `data.key`.  We model the pointer structure rooted at a
  node as the inductive type `Rbnode`; `nil` is the `NULL` pointer.
  Directions (the C `int dir`, always 0 or 1) are modelled as `Bool` with
  `false = 0`, `true = 1`, so `link[dir]` becomes `getLink t dir`.
* The key is a C `int`; `int` arithmetic wraps at 2^32 (two's complement), so
  the subtraction in `node_cmp` is modelled with an explicit reduction
  `wrap32` into `[-2^31, 2^31)`.
* The in-place pointer loops of `jsw_rbinsert` / `jsw_rberase` walk down the
  tree keeping a window of ancestor pointers (`t`, `g`, `p`, `q`) and write
  through them.  We transcribe them with an explicit zipper: the list of
  `Crumb`s records, innermost first, the chain of ancestors of the current
  node `q` exactly as the C helpers do (`ctx.head` is `p`, the next crumb is
  `g`, the rest of the list is the tree above `t`'s write target).  The C
  pointer comparisons `t->link[1] == g` / `g->link[1] == p` /
  `p->link[1] == q` compare addresses and therefore compute exactly the
  direction stored in the corresponding crumb.
-/

set_option maxHeartbeats 1000000
set_option maxRecDepth 4000

namespace RbBench

/-- A `jsw_rbnode_t` reachable structure: `nil` is the C `NULL` pointer, and
`node red link0 key link1` is a node with color flag `red` (C `int red`,
1 = red, 0 = black), children `link[0]`, `link[1]` and payload key
`data.key`. -/
inductive Rbnode where
  | nil : Rbnode
  | node (red : Bool) (link0 : Rbnode) (key : Int) (link1 : Rbnode) : Rbnode
deriving DecidableEq, Repr

namespace Rbnode

/-- `t->link[dir]` (reading a child; on `NULL` the C would fault, we return
`nil`). -/
def getLink : Rbnode → Bool → Rbnode
  | .nil, _ => .nil
  | .node _ l _ _, false => l
  | .node _ _ _ r, true => r

/-- `t->link[dir] = c` (writing a child pointer). -/
def setLink : Rbnode → Bool → Rbnode → Rbnode
  | .nil, _, _ => .nil
  | .node red _ k r, false, c => .node red c k r
  | .node red l k _, true, c => .node red l k c

/-- `t->red = b` (writing the color flag). -/
def setRed : Rbnode → Bool → Rbnode
  | .nil, _ => .nil
  | .node _ l k r, b => .node b l k r

/-- `data.key` of a node (`0` as a junk value on `NULL`, never used there). -/
def key : Rbnode → Int
  | .nil => 0
  | .node _ _ k _ => k

/-- Number of nodes. -/
def size : Rbnode → Nat
  | .nil => 0
  | .node _ l _ r => size l + size r + 1

/-- Height (length in nodes of a longest root-to-leaf path). -/
def height : Rbnode → Nat
  | .nil => 0
  | .node _ l _ r => max (height l) (height r) + 1

/-- In-order key sequence visiting `link[1]` before `link[0]`. -/
def inorder1 : Rbnode → List Int
  | .nil => []
  | .node _ l k r => inorder1 r ++ k :: inorder1 l

end Rbnode

open Rbnode

/-- `is_red` (lines 45-48): `root != NULL && root->red == 1`. -/
def is_red : Rbnode → Bool
  | .nil => false
  | .node red _ _ _ => red

/-- Reduction of an integer into the value range `[-2^31, 2^31)` of a 32-bit
two's complement `int`; models the wrap-around of the C subtraction. -/
def wrap32 (x : Int) : Int := (x + 2 ^ 31) % 2 ^ 32 - 2 ^ 31

/-- `node_cmp` (lines 25-28): `n2->data.key - n1->data.key` computed in
32-bit `int` arithmetic.  `k1` is `n1`'s key and `k2` is `n2`'s key. -/
def node_cmp (k1 k2 : Int) : Int := wrap32 (k2 - k1)

/-- `jsw_single` (lines 60-71): single rotation around `root` in direction
`dir`.  The C assumes `root->link[!dir]` is a valid node. -/
def jsw_single (root : Rbnode) (dir : Bool) : Rbnode :=
  let save := getLink root (!dir)
  let root1 := setRed (setLink root (!dir) (getLink save dir)) true
  setRed (setLink save dir root1) false

/-- `jsw_double` (lines 83-88): double rotation around `root`. -/
def jsw_double (root : Rbnode) (dir : Bool) : Rbnode :=
  jsw_single (setLink root (!dir) (jsw_single (getLink root (!dir)) (!dir))) dir

/-- `new_node` (lines 90-96): the caller-supplied node is recolored red and
its children are cleared.  It never allocates, so it never fails. -/
def new_node (k : Int) : Rbnode := .node true .nil k .nil

/-- `jsw_rbfind` (lines 110-128): walk from the root; at `it`, compute
`cmp = node_cmp(it, node)`, stop on 0, else move to `it->link[cmp < 0]`.
Returns the found node's key (`some`), or `none` for `NULL`. -/
def jsw_rbfind : Rbnode → Int → Option Int
  | .nil, _ => none
  | .node _ l k0 r, k =>
    let cmp := node_cmp k0 k
    if cmp = 0 then some k0
    else if cmp < 0 then jsw_rbfind r k else jsw_rbfind l k

/-- One step of the ancestor chain above the current node of a top-down
pass: the parent node's color and key, the direction `dir` from the parent
to the current node (so the parent's `link[dir]` is the hole), and the
parent's other child `sib = link[!dir]`. -/
structure Crumb where
  red : Bool
  key : Int
  dir : Bool
  sib : Rbnode
deriving DecidableEq, Repr

/-- Rebuild a parent node from its crumb and the subtree in its hole. -/
def plugCrumb (c : Crumb) (t : Rbnode) : Rbnode :=
  match c.dir with
  | true => .node c.red c.sib c.key t
  | false => .node c.red t c.key c.sib

/-- Rebuild the whole tree from an ancestor chain (innermost crumb first)
and the subtree at the hole. -/
def plug : List Crumb → Rbnode → Rbnode
  | [], t => t
  | c :: ctx, t => plug ctx (plugCrumb c t)

/-! ## Insertion (`jsw_rbinsert`, lines 142-217)

The loop state at the top of an iteration is the current node `q` together
with the crumb chain `ctx` of its ancestors (`ctx.head` is the parent `p`,
the second crumb is the grandparent `g`; `last`, the direction from `g` to
`p`, is the second crumb's `dir` field, and `dir`, the direction from `p`
to `q`, is the head crumb's `dir` field).  The great-grandparent `t` is only
read when a rotation fires, in which case it is the true ancestor above `g`
(the write `t->link[dir2]` with `dir2 = t->link[1] == g` replaces `g`'s
subtree in the structure above), so it needs no explicit representation:
the rotation replaces the top two crumbs. -/

/-- Lines 181-189: if `q` and its parent are both red, repair with a single
rotation (when `q == p->link[last]`, i.e. the two hole directions agree:
the C `==` compares addresses) or a double rotation, attached under the
great-grandparent.  With fewer than two crumbs the C condition cannot fire
on a tree satisfying the invariants (`p` is `NULL` on the first iteration,
and a red-red pair under the root would need a red root). -/
def insFix (ctx : List Crumb) (q : Rbnode) : List Crumb × Rbnode :=
  match ctx with
  | pC :: gC :: rest =>
    if is_red q && pC.red then
      if pC.dir == gC.dir then
        -- t->link[dir2] = jsw_single(g, !last):
        -- g->link[last] = p->link[!last]; p->link[!last] = g;
        -- g->red = 1; p->red = 0.  New chain: t → p(black) → q.
        ({ red := false, key := pC.key, dir := pC.dir,
           sib := plugCrumb { gC with red := true } pC.sib } :: rest, q)
      else
        -- t->link[dir2] = jsw_double(g, !last): q becomes the subtree root,
        -- its old children are given to p and g.  New chain: t → q(black).
        match q with
        | .nil => (ctx, q)   -- unreachable: is_red nil = false
        | .node _ ql qk qr =>
          let qLast := if gC.dir then qr else ql       -- q->link[last]
          let qOther := if gC.dir then ql else qr      -- q->link[!last]
          let p1 := plugCrumb { red := true, key := pC.key, dir := pC.dir,
                                sib := pC.sib } qLast
          let g2 := plugCrumb { red := true, key := gC.key, dir := gC.dir,
                                sib := gC.sib } qOther
          (rest, if gC.dir then .node false g2 qk p1 else .node false p1 qk g2)
    else (ctx, q)
  | _ => (ctx, q)

/-- The search/fixup loop of `jsw_rbinsert` (lines 166-207), one recursive
call per iteration, entered with the loop state at the top of the body.
The fuel argument only bounds the number of iterations (the C loop has no
structural termination measure when the comparison is inconsistent); `none`
means the transcription ran out of fuel, i.e. the run is not represented. -/
def insLoop (k : Int) : Nat → List Crumb → Rbnode → Option Rbnode
  | 0, _, _ => none
  | _ + 1, ctx, .nil =>
    -- lines 167-172: attach a fresh red node at p's null link; the red-red
    -- check (181-189) then runs with q = the fresh node, and the loop stops
    -- at line 195 because node_cmp(q, node) = 0 for the fresh node.
    let fx := insFix ctx (new_node k)
    some (plug fx.1 fx.2)
  | fuel + 1, ctx, .node qc ql qk qr =>
    -- lines 174-179: color flip when both children are red
    let q1 := if is_red ql && is_red qr then
        Rbnode.node true (setRed ql false) qk (setRed qr false)
      else .node qc ql qk qr
    -- lines 181-189: red-red fixup
    let fx := insFix ctx q1
    -- line 195: stop if node_cmp(q, node) == 0 (this also rejects duplicates)
    if node_cmp qk k = 0 then
      some (plug fx.1 fx.2)
    else
      -- lines 198-206: last = dir; dir = node_cmp(q, node) < 0; move down
      let dir := decide (node_cmp qk k < 0)
      match fx.2 with
      | .nil => none   -- unreachable: insFix keeps q a node
      | .node c2 l2 k2 r2 =>
        insLoop k fuel
          ({ red := c2, key := k2, dir := dir, sib := if dir then l2 else r2 } :: fx.1)
          (if dir then r2 else l2)

/-- `jsw_rbinsert` (lines 142-217).  Returns the C return value and the new
root.  In this model `new_node` is total (allocation is caller-side), so
the `return 0` paths of the C (lines 151-152, 171-172) are dead.  `none`
means the bounded transcription ran out of fuel, not a C behavior. -/
def jsw_rbinsert (fuel : Nat) (t : Rbnode) (k : Int) : Option (Int × Rbnode) :=
  match t with
  | .nil =>
    -- lines 144-153: empty tree, attach directly to the root;
    -- line 214 colors the root black
    some (1, setRed (new_node k) false)
  | .node _ _ _ _ =>
    match insLoop k fuel [] t with
    | none => none
    | some r =>
      -- line 210: tree->root = head.link[1] (the plug);
      -- line 214: tree->root->red = 0; line 216: return 1
      some (1, setRed r false)

/-! ## Erasure (`jsw_rberase`, lines 235-319)

Same zipper convention as for insertion.  The loop state after the "move
the helpers down" step (lines 256-258) is the current node `q`, the crumb
chain `ctx` of its ancestors (`ctx.head` is `p`; its `dir` field is the C
variable `last`, and for the empty chain `p` is the stack sentinel `head`,
whose `link[0]` is `NULL` and for which `last = 1`), and the fresh
direction `dir = node_cmp(q, node) < 0`.  The C pointer `f` (the node with
matching data, line 240) always lies on the current ancestor path: it is
modelled by `fIsQ` (`f == q`) together with `fCtx` (`f` is the crumb at
this position, counted from the innermost crumb). -/

/-- Lines 267-296: push a red node down with rotations and color flips.
Returns the updated crumb chain, current node, and `f` crumb position. -/
def eraseFix (ctx : List Crumb) (q : Rbnode) (dir : Bool) (fCtx : Option Nat) :
    List Crumb × Rbnode × Option Nat :=
  if !is_red q && !is_red (getLink q dir) then
    if is_red (getLink q (!dir)) then
      -- line 270: p = p->link[last] = jsw_single(q, dir):
      -- save = q->link[!dir]; q->link[!dir] = save->link[dir];
      -- save->link[dir] = q; q->red = 1; save->red = 0.
      match getLink q (!dir) with
      | .nil => (ctx, q, fCtx)    -- unreachable: is_red nil = false
      | .node _ sl sk sr =>
        ({ red := false, key := sk, dir := dir,
           sib := if dir then sl else sr } :: ctx,
         setRed (setLink q (!dir) (if dir then sr else sl)) true,
         fCtx.map Nat.succ)
    else
      -- lines 271-295: s = p->link[!last] is the head crumb's sib field and
      -- last is its dir field (s == NULL when p is the head sentinel)
      match ctx with
      | [] => (ctx, q, fCtx)      -- s == NULL: nothing to do (line 274)
      | pC :: rest =>
        if pC.sib = .nil then (ctx, q, fCtx)   -- line 274
        else if !is_red (getLink pC.sib (!pC.dir)) && !is_red (getLink pC.sib pC.dir) then
          -- lines 275-280: color flip: p->red = 0; s->red = 1; q->red = 1
          ({ pC with red := false, sib := setRed pC.sib true } :: rest,
           setRed q true, fCtx)
        else if is_red (getLink pC.sib pC.dir) then
          -- line 285: g->link[dir2] = jsw_double(p, last), then lines
          -- 289-292: q and the new subtree root red, its children black.
          -- New chain: g → s2(red) → p(black) → q(red).
          match getLink pC.sib pC.dir with
          | .nil => (ctx, q, fCtx)   -- unreachable: is_red nil = false
          | .node _ s2l s2k s2r =>
            ({ red := false, key := pC.key, dir := pC.dir,
               sib := if pC.dir then s2r else s2l } ::
             { red := true, key := s2k, dir := pC.dir,
               sib := setRed (setLink pC.sib pC.dir (if pC.dir then s2l else s2r)) false } ::
             rest,
             setRed q true,
             fCtx.map fun i => if i = 0 then 0 else i + 1)
        else
          -- line 287: g->link[dir2] = jsw_single(p, last), then lines
          -- 289-292.  New chain: g → s(red) → p(black) → q(red).
          ({ red := false, key := pC.key, dir := pC.dir,
             sib := getLink pC.sib pC.dir } ::
           { red := true, key := pC.sib.key, dir := pC.dir,
             sib := setRed (getLink pC.sib (!pC.dir)) false } ::
           rest,
           setRed q true,
           fCtx.map fun i => if i = 0 then 0 else i + 1)
  else (ctx, q, fCtx)

/-- Replace the key of the crumb at position `i` (the `f->data = q->data`
half of the swap at lines 301-304; `q` gets `f`'s old data but is spliced
out immediately after, so that half is unobservable). -/
def setCrumbKey : List Crumb → Nat → Int → List Crumb
  | [], _, _ => []
  | c :: ctx, 0, k => { c with key := k } :: ctx
  | c :: ctx, i + 1, k => c :: setCrumbKey ctx i k

/-- Lines 299-311: replace and remove the saved node, then rebuild the
root.  `q` is the final current node (`q->link[dir] == NULL`). -/
def eraseFinish (ctx : List Crumb) (q : Rbnode) (fIsQ : Bool)
    (fCtx : Option Nat) : Rbnode :=
  -- line 306-307: p->link[p->link[1] == q] = q->link[q->link[0] == NULL]
  let repl := if getLink q false = .nil then getLink q true else getLink q false
  if fIsQ then
    -- f == q: the data swap is the identity, q is spliced out
    plug ctx repl
  else
    match fCtx with
    | none => plug ctx q            -- f == NULL: no removal (line 300)
    | some i => plug (setCrumbKey ctx i q.key) repl

theorem size_setRed (t : Rbnode) (b : Bool) : (setRed t b).size = t.size := by
  cases t <;> simp [setRed, Rbnode.size]

theorem size_getLink_lt (t : Rbnode) (d : Bool) (h : t ≠ .nil) :
    (getLink t d).size < t.size := by
  cases t with
  | nil => exact absurd rfl h
  | node c l k r => cases d <;> simp [getLink, Rbnode.size] <;> omega

theorem eraseFix_size_le (ctx : List Crumb) (q : Rbnode) (dir : Bool)
    (fCtx : Option Nat) : (eraseFix ctx q dir fCtx).2.1.size ≤ q.size := by
  unfold eraseFix
  split
  · split
    · split
      · exact le_refl _
      · rename_i hs
        cases q with
        | nil => exact absurd hs (by simp [getLink])
        | node c l k r =>
          cases dir <;> simp_all [getLink, setLink, setRed, Rbnode.size] <;> omega
    · split
      · exact le_refl _
      · split
        · exact le_refl _
        · split
          · exact le_of_eq (size_setRed q true)
          · split
            · split
              · exact le_refl _
              · exact le_of_eq (size_setRed q true)
            · exact le_of_eq (size_setRed q true)
  · exact le_refl _

/-- The erase loop (lines 252-297), one recursive call per iteration,
entered right after the "move down" step; plus the final replace/remove
pass.  Returns the new root (before the final recoloring).  The `fuel`
argument only makes the recursion structural: every iteration strictly
decreases the size of the current subtree (`eraseFix` never grows `q` and
the loop then steps into a child), so any fuel above that size gives the
same result (`eraseLoop_fuel`), and `jsw_rberase` supplies enough. -/
def eraseLoop (k : Int) : Nat → List Crumb → Rbnode → Bool → Bool → Option Nat → Rbnode
  | 0, ctx, q, _, fIsQ, fCtx => eraseFinish ctx q fIsQ fCtx   -- never reached
  | fuel + 1, ctx, q, dir, fIsQ, fCtx =>
    match getLink (eraseFix ctx q dir fCtx).2.1 dir with
    | .nil =>
      eraseFinish (eraseFix ctx q dir fCtx).1 (eraseFix ctx q dir fCtx).2.1
        fIsQ (eraseFix ctx q dir fCtx).2.2
    | .node c2 l2 qk2 r2 =>
      -- lines 253-258: last = dir; g = p; p = q; q = q->link[dir];
      -- dir = node_cmp(q, node) < 0; lines 264-265: f = q on a match
      eraseLoop k fuel
        ({ red := is_red (eraseFix ctx q dir fCtx).2.1,
           key := ((eraseFix ctx q dir fCtx).2.1).key, dir := dir,
           sib := getLink (eraseFix ctx q dir fCtx).2.1 (!dir) } ::
          (eraseFix ctx q dir fCtx).1)
        (.node c2 l2 qk2 r2)
        (decide (node_cmp qk2 k < 0)) (decide (node_cmp qk2 k = 0))
        (if node_cmp qk2 k = 0 then none
         else if fIsQ then some 0 else ((eraseFix ctx q dir fCtx).2.2).map Nat.succ)

/-- `jsw_rberase` (lines 235-319).  Always returns 1; on an empty tree the
whole body is skipped (line 237). -/
def jsw_rberase (t : Rbnode) (k : Int) : Int × Rbnode :=
  match t with
  | .nil => (1, .nil)
  | .node _ _ rk _ =>
    -- lines 244-246 together with the first pass of 252-258: the sentinel
    -- q = &head with head.link[1] = root and dir = 1 steps to q = root
    let cmp := node_cmp rk k
    let r := eraseLoop k (t.size + 1) [] t (decide (cmp < 0)) (decide (cmp = 0)) none
    -- lines 313-315: if (tree->root != NULL) tree->root->red = 0
    (1, setRed r false)

/-! ## The cursor (`jsw_rbtrav`, lines 30-35, 365-473)

A traversal object holds the current node `it` (`nil` models a `NULL`
current) and the path stack `path` (head of the list = top of the stack,
so `path[trav->top - 1]` is `path.head`).  The C stores node pointers; we
store each stacked node as the subtree rooted at it, which identifies the
node uniquely whenever all keys in the tree are distinct (the pointer
comparison `last == trav->it->link[dir]` at line 419 then coincides with
the structural comparison used here). -/

structure JswRbtrav where
  path : List Rbnode
  it : Rbnode
deriving DecidableEq, Repr

/-- The walk loop shared by `start` (lines 372-377) and the first branch of
`move` (lines 402-405): push the current node and step to `link[dir]` while
that child exists. -/
def walkDown (dir : Bool) : Rbnode → List Rbnode → JswRbtrav
  | .nil, path => ⟨path, .nil⟩
  | .node c l k r, path =>
    match dir with
    | false =>
      match l with
      | .nil => ⟨path, .node c l k r⟩
      | l2 => walkDown false l2 (.node c l k r :: path)
    | true =>
      match r with
      | .nil => ⟨path, .node c l k r⟩
      | r2 => walkDown true r2 (.node c l k r :: path)

/-- `start` (lines 365-380): seed the cursor at the `dir`-extreme of the
tree (`trav->top = 0`, then walk). -/
def start (tree : Rbnode) (dir : Bool) : JswRbtrav := walkDown dir tree []

/-- The pop loop of `move` (lines 408-420): pop ancestors while the
previous node was the `dir`-child of the popped node; the stack emptying
means the traversal is exhausted (`it = NULL`). -/
def moveUp (dir : Bool) : Rbnode → List Rbnode → JswRbtrav
  | _, [] => ⟨[], .nil⟩
  | last, parent :: rest =>
    if getLink parent dir = last then moveUp dir parent rest else ⟨rest, parent⟩

/-- `move` (lines 395-423).  The C dereferences `trav->it` before any test,
so a call with an empty current node is outside the defined interface;
`none` models that undefined call. -/
def move (tr : JswRbtrav) (dir : Bool) : Option JswRbtrav :=
  match tr.it with
  | .nil => none    -- line 397 would dereference NULL
  | .node c l k r =>
    if getLink (.node c l k r) dir ≠ .nil then
      -- lines 397-406: step into link[dir], then walk to its !dir extreme
      some (walkDown (!dir) (getLink (.node c l k r) dir)
        (Rbnode.node c l k r :: tr.path))
    else
      -- lines 407-420: pop back to the first ancestor not entered via dir
      some (moveUp dir (.node c l k r) tr.path)

/-- `jsw_rbtfirst` (lines 433-436): seed at the minimum-direction extreme
(`dir = 0`). -/
def jsw_rbtfirst (tree : Rbnode) : JswRbtrav := start tree false

/-- `jsw_rbtlast` (lines 446-449): seed at the maximum-direction extreme
(`dir = 1`). -/
def jsw_rbtlast (tree : Rbnode) : JswRbtrav := start tree true

/-- `jsw_rbtnext` (lines 458-461): step with `dir = 1`. -/
def jsw_rbtnext (tr : JswRbtrav) : Option JswRbtrav := move tr true

/-- `jsw_rbtprev` (lines 470-473): step with `dir = 0`. -/
def jsw_rbtprev (tr : JswRbtrav) : Option JswRbtrav := move tr false

/-- The key sequence produced by seeding a cursor and stepping it `n` times
or until it reports empty (the C caller's `for (v = first(...); v; v =
next(...))` pattern).  `n` bounds the number of steps taken. -/
def travKeys (dirStep : Bool) : Nat → JswRbtrav → List Int
  | 0, _ => []
  | n + 1, tr =>
    match tr.it with
    | .nil => []
    | .node _ _ k _ =>
      match move tr dirStep with
      | none => [k]
      | some tr2 => k :: travKeys dirStep n tr2

/-! ## The red-black balance invariants (spec §3, claim C1) -/

/-- No red node has a red child. -/
def redRedFree : Rbnode → Bool
  | .nil => true
  | .node c l _ r =>
    (!(c && (is_red l || is_red r))) && redRedFree l && redRedFree r

/-- The number of black nodes crossed on every path from the root to an
absent child, when it is the same on all such paths (`none` otherwise). -/
def bhOf : Rbnode → Option Nat
  | .nil => some 0
  | .node c l _ r =>
    match bhOf l, bhOf r with
    | some a, some b =>
      if a = b then some (if c then a else a + 1) else none
    | _, _ => none

/-- The three balance invariants of spec §3: the root, if present, is
black; no red node has a red child; uniform black-height. -/
def isRB (t : Rbnode) : Prop :=
  is_red t = false ∧ redRedFree t = true ∧ (bhOf t).isSome = true

instance (t : Rbnode) : Decidable (isRB t) := by
  unfold isRB; infer_instance

/-! ## The balance invariant, inductively (proof infrastructure) -/

/-- `Balanced t c n`: `t` is a red-black-balanced structure with root
color `c` (`true` = red) and black-height `n`; red nodes have black
children. -/
inductive Balanced : Rbnode → Bool → Nat → Prop where
  | nil : Balanced .nil false 0
  | red {l r : Rbnode} {k : Int} {n : Nat} :
      Balanced l false n → Balanced r false n → Balanced (.node true l k r) true n
  | black {l r : Rbnode} {k : Int} {c1 c2 : Bool} {n : Nat} :
      Balanced l c1 n → Balanced r c2 n → Balanced (.node false l k r) false (n + 1)

theorem Balanced.is_red_eq {t : Rbnode} {c : Bool} {n : Nat}
    (h : Balanced t c n) : is_red t = c := by
  cases h <;> rfl

theorem Balanced.to_checks {t : Rbnode} {c : Bool} {n : Nat}
    (h : Balanced t c n) :
    redRedFree t = true ∧ bhOf t = some n ∧ is_red t = c := by
  induction h with
  | nil => exact ⟨rfl, rfl, rfl⟩
  | red hl hr ihl ihr =>
    refine ⟨?_, ?_, rfl⟩
    · simp [redRedFree, ihl.1, ihr.1, ihl.2.2, ihr.2.2]
    · simp [bhOf, ihl.2.1, ihr.2.1]
  | black hl hr ihl ihr =>
    refine ⟨?_, ?_, rfl⟩
    · simp [redRedFree, ihl.1, ihr.1, is_red]
    · simp [bhOf, ihl.2.1, ihr.2.1]

theorem Balanced.of_checks : ∀ (t : Rbnode) (n : Nat),
    redRedFree t = true → bhOf t = some n → Balanced t (is_red t) n := by
  intro t
  induction t with
  | nil =>
    intro n _ hb
    simp only [bhOf, Option.some_inj] at hb
    subst hb
    exact .nil
  | node c l k r ihl ihr =>
    intro n hrr hb
    simp only [redRedFree, Bool.and_eq_true] at hrr
    obtain ⟨⟨hc, hl⟩, hr2⟩ := hrr
    simp only [bhOf] at hb
    rcases hbl : bhOf l with _ | a <;> rw [hbl] at hb
    · cases hb
    rcases hbr : bhOf r with _ | b <;> rw [hbr] at hb
    · cases hb
    simp only [Option.some_inj] at hb
    by_cases hab : a = b
    · subst hab
      rw [if_pos rfl, Option.some_inj] at hb
      have HL := ihl a hl hbl
      have HR := ihr a hr2 hbr
      cases c with
      | false =>
        subst hb
        exact .black HL HR
      | true =>
        simp only [Bool.true_and, Bool.not_or, Bool.and_eq_true,
          Bool.not_eq_true'] at hc
        rw [hc.1] at HL
        rw [hc.2] at HR
        subst hb
        exact .red HL HR
    · rw [if_neg hab] at hb
      cases hb

theorem isRB_iff_balanced (t : Rbnode) : isRB t ↔ ∃ n, Balanced t false n := by
  constructor
  · rintro ⟨h1, h2, h3⟩
    rcases hb : bhOf t with _ | n
    · rw [hb] at h3; cases h3
    · exact ⟨n, h1 ▸ Balanced.of_checks t n h2 hb⟩
  · rintro ⟨n, h⟩
    obtain ⟨h1, h2, h3⟩ := h.to_checks
    exact ⟨h3, h1, by rw [h2]; rfl⟩

/-- `CtxBal ctx c n c0 N`: the crumb chain `ctx` is a red-black context
whose hole expects a subtree with root color `c` and black-height `n`;
filling the hole accordingly yields a balanced tree with root color `c0`
and black-height `N` (`CtxBal.fill`).  A red parent demands a black child;
a black parent accepts either color. -/
inductive CtxBal : List Crumb → Bool → Nat → Bool → Nat → Prop where
  | nil {c : Bool} {n : Nat} : CtxBal [] c n c n
  | red {k : Int} {d : Bool} {sib : Rbnode} {rest : List Crumb}
      {n : Nat} {c0 : Bool} {N : Nat} :
      Balanced sib false n → CtxBal rest true n c0 N →
      CtxBal ({ red := true, key := k, dir := d, sib := sib } :: rest) false n c0 N
  | black {k : Int} {d : Bool} {sib : Rbnode} {rest : List Crumb}
      {cs c : Bool} {n : Nat} {c0 : Bool} {N : Nat} :
      Balanced sib cs n → CtxBal rest false (n + 1) c0 N →
      CtxBal ({ red := false, key := k, dir := d, sib := sib } :: rest) c n c0 N

theorem plugCrumb_balanced_red {k : Int} {d : Bool} {sib t : Rbnode} {n : Nat}
    (hsib : Balanced sib false n) (ht : Balanced t false n) :
    Balanced (plugCrumb { red := true, key := k, dir := d, sib := sib } t) true n := by
  unfold plugCrumb
  cases d
  · exact .red ht hsib
  · exact .red hsib ht

theorem plugCrumb_balanced_black {k : Int} {d : Bool} {sib t : Rbnode}
    {cs c : Bool} {n : Nat} (hsib : Balanced sib cs n) (ht : Balanced t c n) :
    Balanced (plugCrumb { red := false, key := k, dir := d, sib := sib } t)
      false (n + 1) := by
  unfold plugCrumb
  cases d
  · exact .black ht hsib
  · exact .black hsib ht

theorem CtxBal.fill {ctx : List Crumb} {c : Bool} {n : Nat} {c0 : Bool} {N : Nat}
    {t : Rbnode} (hctx : CtxBal ctx c n c0 N) (ht : Balanced t c n) :
    Balanced (plug ctx t) c0 N := by
  induction hctx generalizing t with
  | nil => exact ht
  | red hsib _ ih => exact ih (plugCrumb_balanced_red hsib ht)
  | black hsib _ ih => exact ih (plugCrumb_balanced_black hsib ht)

/-- A black parent crumb accepts a hole of either color. -/
theorem CtxBal.recolorHole {pC : Crumb} {rest : List Crumb} {c n c0 N}
    (h : CtxBal (pC :: rest) c n c0 N) (hp : pC.red = false) (c2 : Bool) :
    CtxBal (pC :: rest) c2 n c0 N := by
  cases h with
  | red hsib hrest => cases hp
  | black hsib hrest => exact .black hsib hrest

/-! ## The insert pass preserves the balance invariants -/

/-- The situations in which the red-red check of the insert loop can see a
red current node: the current entry is `NULL` (a fresh red node is
attached), the node is already red, or the color flip has just fired (both
children red). -/
def trigger (q : Rbnode) : Prop :=
  q = .nil ∨ is_red q = true ∨
    (is_red (getLink q false) = true ∧ is_red (getLink q true) = true)

theorem not_trigger {l r : Rbnode} {x : Int} (hl : is_red l = false)
    (hr : is_red r = false) : ¬ trigger (.node false l x r) := by
  rintro (h | h | ⟨h1, h2⟩)
  · exact Rbnode.noConfusion h
  · simp [is_red] at h
  · rw [show getLink (Rbnode.node false l x r) false = l from rfl, hl] at h1
    cases h1

theorem getLink_plugCrumb_dir (c : Crumb) (t : Rbnode) :
    getLink (plugCrumb c t) c.dir = t := by
  unfold plugCrumb
  cases c.dir <;> rfl

/-- Reading a child of `insFix`'s result when the current node is black:
nothing fires. -/
theorem insFix_id_of_black (ctx : List Crumb) (q : Rbnode)
    (h : is_red q = false) : insFix ctx q = (ctx, q) := by
  cases ctx with
  | nil => rfl
  | cons pC rest =>
    cases rest with
    | nil => rfl
    | cons gC rest2 => simp [insFix, h]

/-- Moving the window one step down: if the current subtree and context
fit together, so do its `d`-child and the context extended with the crumb
the loop pushes. -/
theorem step_down (q2 : Rbnode) (d : Bool) {cq2 : Bool} {n2 : Nat} {c02 : Bool}
    {N : Nat} {ctx1 : List Crumb}
    (hq2 : Balanced q2 cq2 n2) (hctx2 : CtxBal ctx1 cq2 n2 c02 N)
    (hne : q2 ≠ .nil) :
    ∃ cc nc, Balanced (getLink q2 d) cc nc ∧
      CtxBal ({ red := is_red q2, key := q2.key, dir := d,
                sib := getLink q2 (!d) } :: ctx1) cc nc c02 N := by
  cases hq2 with
  | nil => exact absurd rfl hne
  | red hl hr =>
    cases d with
    | false => exact ⟨false, _, hl, .red hr hctx2⟩
    | true => exact ⟨false, _, hr, .red hl hctx2⟩
  | black hl hr =>
    cases d with
    | false => exact ⟨_, _, hl, .black hr hctx2⟩
    | true => exact ⟨_, _, hr, .black hl hctx2⟩

theorem plugCrumb_key (c : Crumb) (t : Rbnode) : (plugCrumb c t).key = c.key := by
  unfold plugCrumb
  cases c.dir <;> rfl

theorem plugCrumb_is_red (c : Crumb) (t : Rbnode) :
    is_red (plugCrumb c t) = c.red := by
  unfold plugCrumb
  cases c.dir <;> rfl

theorem CtxBal_grand_black {pC gC : Crumb} {rest : List Crumb} {c : Bool} {n : Nat}
    {c0 : Bool} {N : Nat} (h : CtxBal (pC :: gC :: rest) c n c0 N)
    (hp : pC.red = true) : gC.red = false := by
  cases h with
  | red hsib hrest =>
    cases hrest with
    | black _ _ => rfl
  | black hsib hrest => simp at hp

/-- The red-red fixup of the insert loop turns a fitting window into a
fitting window: whatever branch fires, the new current node and the new
crumb chain are balanced and plug together at the same overall
black-height.  `hch` says the stored hole color can only disagree with the
current node's color by the node having just turned red; `hsafe` is the
loop invariant that a red parent above a red current node comes with a
black grandparent sibling. -/
theorem insFix_fit {ctx : List Crumb} {q1 : Rbnode} {ch cq1 : Bool} {n : Nat}
    {c0 : Bool} {N : Nat}
    (hq : Balanced q1 cq1 n) (hctx : CtxBal ctx ch n c0 N)
    (hch : ch = true → cq1 = true)
    (hsafe : cq1 = true → ∀ pC rest, ctx = pC :: rest → pC.red = true →
      ∃ gC rest2, rest = gC :: rest2 ∧ is_red gC.sib = false) :
    ∃ cq2 n2 c02, Balanced (insFix ctx q1).2 cq2 n2 ∧
      CtxBal (insFix ctx q1).1 cq2 n2 c02 N := by
  cases hcq1 : cq1 with
  | false =>
    -- black current node: nothing fires, and the hole color is black too
    have hid := insFix_id_of_black ctx q1 (by rw [hq.is_red_eq, hcq1])
    rw [hid]
    have hchf : ch = false := by
      cases hch2 : ch with
      | false => rfl
      | true => rw [hch hch2] at hcq1; cases hcq1
    subst hcq1; subst hchf
    exact ⟨false, n, c0, hq, hctx⟩
  | true =>
    subst hcq1
    cases ctx with
    | nil =>
      cases hctx with
      | nil => exact ⟨true, n, true, hq, .nil⟩
    | cons pC rest =>
      cases rest with
      | nil =>
        -- a single crumb: the C would rotate at g = NULL; the invariant
        -- rules a red single crumb out
        cases hpr : pC.red with
        | true =>
          obtain ⟨gC, rest2, habs, _⟩ := hsafe rfl pC [] rfl hpr
          cases habs
        | false =>
          have hid : insFix [pC] q1 = ([pC], q1) := rfl
          rw [hid]
          exact ⟨true, n, c0, hq, hctx.recolorHole hpr true⟩
      | cons gC rest2 =>
        obtain ⟨pr, pk, pd, psib⟩ := pC
        obtain ⟨gr, gk, gd, gsib⟩ := gC
        cases hpr : pr with
        | false =>
          subst hpr
          have hid : insFix ({ red := false, key := pk, dir := pd, sib := psib } ::
              { red := gr, key := gk, dir := gd, sib := gsib } :: rest2) q1 =
              ({ red := false, key := pk, dir := pd, sib := psib } ::
                { red := gr, key := gk, dir := gd, sib := gsib } :: rest2, q1) := by
            simp [insFix, hq.is_red_eq]
          rw [hid]
          exact ⟨true, n, c0, hq, hctx.recolorHole rfl true⟩
        | true =>
          subst hpr
          obtain ⟨gC2, rest3, heq, hgsib⟩ := hsafe rfl _ _ rfl rfl
          cases heq
          simp only at hgsib
          have hgr : gr = false := CtxBal_grand_black hctx rfl
          subst hgr
          by_cases hdd : pd = gd
          · -- straight: single rotation at the grandparent
            have hfx : insFix ({ red := true, key := pk, dir := pd, sib := psib } ::
                { red := false, key := gk, dir := gd, sib := gsib } :: rest2) q1 =
                ({ red := false, key := pk, dir := pd,
                   sib := plugCrumb { red := true, key := gk, dir := gd, sib := gsib } psib } ::
                  rest2, q1) := by
              simp [insFix, hq.is_red_eq, hdd]
            rw [hfx]
            cases hctx with
            | red hpsib hrest =>
              cases hrest with
              | black hgsib2 hrest2 =>
                have hgsibb : Balanced gsib false n := by
                  have h2 := hgsib2.is_red_eq
                  rw [hgsib] at h2
                  rw [← h2] at hgsib2
                  exact hgsib2
                refine ⟨true, n, c0, hq, ?_⟩
                exact .black (plugCrumb_balanced_red hgsibb hpsib) hrest2
          · -- zigzag: double rotation, the current node becomes the root
            cases hq with
            | red hql hqr =>
              rename_i ql1 qr1 qk1
              have hfx : insFix ({ red := true, key := pk, dir := pd, sib := psib } ::
                  { red := false, key := gk, dir := gd, sib := gsib } :: rest2)
                  (.node true ql1 qk1 qr1) =
                  (rest2,
                   if gd then
                     Rbnode.node false
                       (plugCrumb { red := true, key := gk, dir := gd, sib := gsib }
                         (if gd then ql1 else qr1))
                       qk1
                       (plugCrumb { red := true, key := pk, dir := pd, sib := psib }
                         (if gd then qr1 else ql1))
                   else
                     Rbnode.node false
                       (plugCrumb { red := true, key := pk, dir := pd, sib := psib }
                         (if gd then qr1 else ql1))
                       qk1
                       (plugCrumb { red := true, key := gk, dir := gd, sib := gsib }
                         (if gd then ql1 else qr1))) := by
                simp [insFix, is_red, hdd]
              rw [hfx]
              cases hctx with
              | red hpsib hrest =>
                cases hrest with
                | black hgsib2 hrest2 =>
                  have hgsibb : Balanced gsib false n := by
                    have h2 := hgsib2.is_red_eq
                    rw [hgsib] at h2
                    rw [← h2] at hgsib2
                    exact hgsib2
                  refine ⟨false, n + 1, c0, ?_, hrest2⟩
                  cases gd with
                  | true =>
                    rw [show (if (true : Bool) = true then ql1 else qr1) = ql1 from rfl,
                      show (if (true : Bool) = true then qr1 else ql1) = qr1 from rfl,
                      show (if (true : Bool) = true then
                        Rbnode.node false (plugCrumb { red := true, key := gk, dir := true, sib := gsib } ql1) qk1 (plugCrumb { red := true, key := pk, dir := pd, sib := psib } qr1)
                      else
                        Rbnode.node false (plugCrumb { red := true, key := pk, dir := pd, sib := psib } qr1) qk1 (plugCrumb { red := true, key := gk, dir := true, sib := gsib } ql1)) =
                        Rbnode.node false (plugCrumb { red := true, key := gk, dir := true, sib := gsib } ql1) qk1 (plugCrumb { red := true, key := pk, dir := pd, sib := psib } qr1) from rfl]
                    exact .black (plugCrumb_balanced_red hgsibb hql)
                      (plugCrumb_balanced_red hpsib hqr)
                  | false =>
                    rw [show (if (false : Bool) = true then ql1 else qr1) = qr1 from rfl,
                      show (if (false : Bool) = true then qr1 else ql1) = ql1 from rfl,
                      show (if (false : Bool) = true then
                        Rbnode.node false (plugCrumb { red := true, key := gk, dir := false, sib := gsib } qr1) qk1 (plugCrumb { red := true, key := pk, dir := pd, sib := psib } ql1)
                      else
                        Rbnode.node false (plugCrumb { red := true, key := pk, dir := pd, sib := psib } ql1) qk1 (plugCrumb { red := true, key := gk, dir := false, sib := gsib } qr1)) =
                        Rbnode.node false (plugCrumb { red := true, key := pk, dir := pd, sib := psib } ql1) qk1 (plugCrumb { red := true, key := gk, dir := false, sib := gsib } qr1) from rfl]
                    exact .black (plugCrumb_balanced_red hpsib hql)
                      (plugCrumb_balanced_red hgsibb hqr)

/-! ## The insert loop preserves the balance invariants -/

theorem balanced_red_getLink {q : Rbnode} {n : Nat} (h : Balanced q true n)
    (d : Bool) : Balanced (getLink q d) false n := by
  cases h with
  | red hl hr =>
    cases d
    · exact hl
    · exact hr

theorem setRed_false_balanced {t : Rbnode} {c : Bool} {n : Nat}
    (h : Balanced t c n) : ∃ n2, Balanced (setRed t false) false n2 := by
  cases h with
  | nil => exact ⟨0, .nil⟩
  | red hl hr => exact ⟨_, .black hl hr⟩
  | black hl hr => exact ⟨_, .black hl hr⟩

theorem is_red_setRed_false (t : Rbnode) : is_red (setRed t false) = false := by
  cases t <;> rfl

/-- The color flip (lines 174-179) on a balanced node with two red
children: the node was black, the result is red and balanced at the same
black-height, and both recolored children are black non-`NULL` nodes with
black children, so the next iteration cannot fire the red-red check on
them. -/
theorem flip_balanced {qc cq : Bool} {ql qr : Rbnode} {qk : Int} {n : Nat}
    (h : Balanced (.node qc ql qk qr) cq n)
    (hl : is_red ql = true) (hr : is_red qr = true) :
    Balanced (.node true (setRed ql false) qk (setRed qr false)) true n ∧
      ¬ trigger (setRed ql false) ∧ ¬ trigger (setRed qr false) ∧
      cq = false := by
  cases h with
  | red hbl hbr =>
    rw [hbl.is_red_eq] at hl
    cases hl
  | black hbl hbr =>
    rename_i c1 c2 m
    rw [hbl.is_red_eq] at hl
    rw [hbr.is_red_eq] at hr
    subst hl
    subst hr
    cases hbl with
    | red hla hlb =>
      cases hbr with
      | red hra hrb =>
        exact ⟨.red (.black hla hlb) (.black hra hrb),
          not_trigger hla.is_red_eq hlb.is_red_eq,
          not_trigger hra.is_red_eq hrb.is_red_eq, rfl⟩

/-- `insFix` when the crumb chain starts with a black parent: the red-red
condition cannot fire. -/
theorem insFix_id_of_head_black (pC : Crumb) (rest : List Crumb) (q : Rbnode)
    (h : pC.red = false) : insFix (pC :: rest) q = (pC :: rest, q) := by
  cases rest with
  | nil => rfl
  | cons gC rest2 => simp [insFix, h]

/-- `insFix` never changes the key of the current node. -/
theorem insFix_key (ctx : List Crumb) (q : Rbnode) :
    (insFix ctx q).2.key = q.key := by
  match ctx, q with
  | [], q => rfl
  | [pC], q => rfl
  | pC :: gC :: rest, .nil => simp [insFix, is_red]
  | pC :: gC :: rest, .node qc ql qk qr =>
    obtain ⟨gr, gk, gd, gsib⟩ := gC
    simp only [insFix]
    split
    · split
      · rfl
      · cases gd <;> rfl
    · rfl

/-- `insFix` only drops crumbs or rewrites one keeping its key and
direction, so a property of key/direction pairs survives it. -/
theorem insFix_dirs (k : Int) (ctx : List Crumb) (q : Rbnode)
    (h : ∀ c, c ∈ ctx → c.dir = decide (node_cmp c.key k < 0)) :
    ∀ c, c ∈ (insFix ctx q).1 → c.dir = decide (node_cmp c.key k < 0) := by
  match ctx, q with
  | [], q => exact h
  | [pC], q => exact h
  | pC :: gC :: rest, .nil =>
    intro c hc
    apply h
    simpa [insFix, is_red] using hc
  | pC :: gC :: rest, .node qc ql qk qr =>
    simp only [insFix]
    split
    · split
      · intro c hc
        rcases List.mem_cons.mp hc with rfl | hc
        · exact h pC (List.mem_cons_self _ _)
        · exact h c (List.mem_cons_of_mem _ (List.mem_cons_of_mem _ hc))
      · intro c hc
        exact h c (List.mem_cons_of_mem _ (List.mem_cons_of_mem _ hc))
    · exact h

/-- Computed form of `insFix` when the single-rotation branch fires. -/
theorem insFix_straight (pC gC : Crumb) (rest : List Crumb) (q : Rbnode)
    (hq : is_red q = true) (hp : pC.red = true) (hd : pC.dir = gC.dir) :
    insFix (pC :: gC :: rest) q =
      ({ red := false, key := pC.key, dir := pC.dir,
         sib := plugCrumb { gC with red := true } pC.sib } :: rest, q) := by
  simp [insFix, hq, hp, hd]

/-- Computed form of `insFix` when the double-rotation branch fires. -/
theorem insFix_zigzag (pC gC : Crumb) (rest : List Crumb) (ql : Rbnode)
    (qk : Int) (qr : Rbnode) (hp : pC.red = true)
    (hd : (pC.dir == gC.dir) = false) :
    insFix (pC :: gC :: rest) (.node true ql qk qr) =
      (rest,
       if gC.dir then
         Rbnode.node false
           (plugCrumb { red := true, key := gC.key, dir := gC.dir, sib := gC.sib }
             (if gC.dir then ql else qr))
           qk
           (plugCrumb { red := true, key := pC.key, dir := pC.dir, sib := pC.sib }
             (if gC.dir then qr else ql))
       else
         Rbnode.node false
           (plugCrumb { red := true, key := pC.key, dir := pC.dir, sib := pC.sib }
             (if gC.dir then qr else ql))
           qk
           (plugCrumb { red := true, key := gC.key, dir := gC.dir, sib := gC.sib }
             (if gC.dir then ql else qr))) := by
  simp [insFix, is_red, hp, hd]

/-- Step equation for the insert loop: stopping at an equal key. -/
theorem insLoop_node_break (k : Int) (fuel : Nat) (ctx : List Crumb)
    (qc : Bool) (ql : Rbnode) (qk : Int) (qr : Rbnode) (q1 : Rbnode)
    (hq1 : (if is_red ql && is_red qr then
        Rbnode.node true (setRed ql false) qk (setRed qr false)
      else Rbnode.node qc ql qk qr) = q1)
    (hbreak : node_cmp qk k = 0) :
    insLoop k (fuel + 1) ctx (.node qc ql qk qr) =
      some (plug (insFix ctx q1).1 (insFix ctx q1).2) := by
  subst hq1
  simp only [insLoop]
  rw [if_pos hbreak]

/-- Step equation for the insert loop: the unreachable dead end (`insFix`
keeps the current node a node). -/
theorem insLoop_node_nil (k : Int) (fuel : Nat) (ctx : List Crumb)
    (qc : Bool) (ql : Rbnode) (qk : Int) (qr : Rbnode) (q1 : Rbnode)
    (hq1 : (if is_red ql && is_red qr then
        Rbnode.node true (setRed ql false) qk (setRed qr false)
      else Rbnode.node qc ql qk qr) = q1)
    (hbreak : ¬ node_cmp qk k = 0)
    (hfx2 : (insFix ctx q1).2 = .nil) :
    insLoop k (fuel + 1) ctx (.node qc ql qk qr) = none := by
  subst hq1
  simp only [insLoop]
  rw [if_neg hbreak, hfx2]

/-- Step equation for the insert loop: moving the window down. -/
theorem insLoop_node_step (k : Int) (fuel : Nat) (ctx : List Crumb)
    (qc : Bool) (ql : Rbnode) (qk : Int) (qr : Rbnode) (q1 : Rbnode)
    (c2 : Bool) (l2 : Rbnode) (k2 : Int) (r2 : Rbnode)
    (hq1 : (if is_red ql && is_red qr then
        Rbnode.node true (setRed ql false) qk (setRed qr false)
      else Rbnode.node qc ql qk qr) = q1)
    (hbreak : ¬ node_cmp qk k = 0)
    (hfx2 : (insFix ctx q1).2 = .node c2 l2 k2 r2) :
    insLoop k (fuel + 1) ctx (.node qc ql qk qr) =
      insLoop k fuel
        ({ red := c2, key := k2, dir := decide (node_cmp qk k < 0),
           sib := if decide (node_cmp qk k < 0) then l2 else r2 } ::
          (insFix ctx q1).1)
        (if decide (node_cmp qk k < 0) then r2 else l2) := by
  subst hq1
  simp only [insLoop]
  rw [if_neg hbreak, hfx2]

/-- One descent step of the insert loop: given the inductive hypothesis
for the remaining fuel and the branch-specific facts about the node the
loop is leaving (`hD`, `hE`), the child state satisfies the loop invariant
again. -/
theorem insLoop_descend (k : Int) (N : Nat) (fuel : Nat)
    (ih : ∀ (ctx : List Crumb) (q : Rbnode) (cq : Bool) (n : Nat) (c0 : Bool),
      Balanced q cq n → CtxBal ctx cq n c0 N →
      (∀ c, c ∈ ctx → c.dir = decide (node_cmp c.key k < 0)) →
      (∀ pC rest, ctx = pC :: rest → pC.red = true → is_red q = false) →
      (∀ pC rest, ctx = pC :: rest → pC.red = true → trigger q →
        ∃ gC rest2, rest = gC :: rest2 ∧ is_red gC.sib = false) →
      (is_red q = true →
        ¬ trigger (getLink q (decide (node_cmp q.key k < 0))) ∨
        ∃ pC rest, ctx = pC :: rest ∧ is_red pC.sib = false) →
      (ctx = [] → is_red q = false) →
      ∀ r, insLoop k fuel ctx q = some r → ∃ c2, Balanced r c2 N)
    (ctx1 : List Crumb) (c2 : Bool) (l2 : Rbnode) (k2 : Int) (r2 : Rbnode)
    (cq2 : Bool) (n2 : Nat) (c02 : Bool) (d : Bool)
    (hq2 : Balanced (.node c2 l2 k2 r2) cq2 n2)
    (hctx2 : CtxBal ctx1 cq2 n2 c02 N)
    (hdirs1 : ∀ c, c ∈ ctx1 → c.dir = decide (node_cmp c.key k < 0))
    (hd : d = decide (node_cmp k2 k < 0))
    (hD : c2 = true → trigger (getLink (Rbnode.node c2 l2 k2 r2) d) →
      ∃ gC rest2, ctx1 = gC :: rest2 ∧ is_red gC.sib = false)
    (hE : is_red (getLink (Rbnode.node c2 l2 k2 r2) d) = true →
      ¬ trigger (getLink (getLink (Rbnode.node c2 l2 k2 r2) d)
          (decide (node_cmp (getLink (Rbnode.node c2 l2 k2 r2) d).key k < 0))) ∨
      is_red (getLink (Rbnode.node c2 l2 k2 r2) (!d)) = false) :
    ∀ r, insLoop k fuel
      ({ red := c2, key := k2, dir := d, sib := if d then l2 else r2 } :: ctx1)
      (if d then r2 else l2) = some r → ∃ c3, Balanced r c3 N := by
  intro r hr
  have hchild : (if d then r2 else l2) = getLink (.node c2 l2 k2 r2) d := by
    cases d <;> rfl
  have hcrumb :
      ({ red := c2, key := k2, dir := d, sib := if d then l2 else r2 } : Crumb)
      = { red := is_red (Rbnode.node c2 l2 k2 r2),
          key := Rbnode.key (Rbnode.node c2 l2 k2 r2), dir := d,
          sib := getLink (Rbnode.node c2 l2 k2 r2) (!d) } := by
    cases d <;> rfl
  rw [hchild, hcrumb] at hr
  obtain ⟨cc, nc, hq3, hctx3⟩ :=
    step_down (.node c2 l2 k2 r2) d hq2 hctx2 (by intro h; cases h)
  refine ih _ _ cc nc c02 hq3 hctx3 ?_ ?_ ?_ ?_ ?_ r hr
  · intro c hc
    rcases List.mem_cons.mp hc with rfl | hc
    · exact hd
    · exact hdirs1 c hc
  · intro pC rest he hpr
    cases he
    have hc2 : c2 = true := hpr
    subst hc2
    cases hq2 with
    | red hbl hbr =>
      cases d
      · exact hbl.is_red_eq
      · exact hbr.is_red_eq
  · intro pC rest he hpr htr
    cases he
    exact hD hpr htr
  · intro hq4
    rcases hE hq4 with h1 | h2
    · exact Or.inl h1
    · exact Or.inr ⟨_, _, rfl, h2⟩
  · intro h
    cases h

/-- Descent step in the situation after a color flip (or a fixup keeping a
freshly-red current node): both children of the red current node are calm,
so the next iteration cannot fire the red-red fixup at all. -/
theorem insLoop_descend_calmred (k : Int) (N : Nat) (fuel : Nat)
    (ih : ∀ (ctx : List Crumb) (q : Rbnode) (cq : Bool) (n : Nat) (c0 : Bool),
      Balanced q cq n → CtxBal ctx cq n c0 N →
      (∀ c, c ∈ ctx → c.dir = decide (node_cmp c.key k < 0)) →
      (∀ pC rest, ctx = pC :: rest → pC.red = true → is_red q = false) →
      (∀ pC rest, ctx = pC :: rest → pC.red = true → trigger q →
        ∃ gC rest2, rest = gC :: rest2 ∧ is_red gC.sib = false) →
      (is_red q = true →
        ¬ trigger (getLink q (decide (node_cmp q.key k < 0))) ∨
        ∃ pC rest, ctx = pC :: rest ∧ is_red pC.sib = false) →
      (ctx = [] → is_red q = false) →
      ∀ r, insLoop k fuel ctx q = some r → ∃ c2, Balanced r c2 N)
    (ctx1 : List Crumb) (L : Rbnode) (qk : Int) (R : Rbnode)
    (cq2 : Bool) (n2 : Nat) (c02 : Bool)
    (hq2 : Balanced (.node true L qk R) cq2 n2)
    (hctx2 : CtxBal ctx1 cq2 n2 c02 N)
    (hdirs1 : ∀ c, c ∈ ctx1 → c.dir = decide (node_cmp c.key k < 0))
    (hnL : ¬ trigger L) (hnR : ¬ trigger R) :
    ∀ r, insLoop k fuel
      ({ red := true, key := qk, dir := decide (node_cmp qk k < 0),
         sib := if decide (node_cmp qk k < 0) then L else R } :: ctx1)
      (if decide (node_cmp qk k < 0) then R else L) = some r →
      ∃ c3, Balanced r c3 N := by
  refine insLoop_descend k N fuel ih ctx1 true L qk R cq2 n2 c02
    (decide (node_cmp qk k < 0)) hq2 hctx2 hdirs1 rfl ?_ ?_
  · cases hdv : decide (node_cmp qk k < 0)
    · exact fun _ htr => absurd htr hnL
    · exact fun _ htr => absurd htr hnR
  · cases hdv : decide (node_cmp qk k < 0)
    · intro habs
      exact absurd (Or.inr (Or.inl habs)) hnL
    · intro habs
      exact absurd (Or.inr (Or.inl habs)) hnR

/-- The search/fixup loop of `jsw_rbinsert` (lines 166-207) keeps the tree
balanced.  The loop invariant, besides the window being balanced
(`Balanced` + `CtxBal` at a common overall black-height `N`):
every stored crumb direction repeats the deterministic comparison of its
key against the searched key; below a red parent crumb the current node is
black; when the red-red fixup can fire, the grandparent crumb exists and
its sibling is black (this is what makes the recoloring of `g` safe);
a red current node either cannot trigger the fixup at its next child or
sits below a parent with a black sibling; and an empty chain comes with a
black current node (the root is black at entry).  Whatever the loop
returns is balanced at black-height `N`. -/
theorem insLoop_balanced (k : Int) (N : Nat) :
    ∀ (fuel : Nat) (ctx : List Crumb) (q : Rbnode) (cq : Bool) (n : Nat)
      (c0 : Bool),
      Balanced q cq n → CtxBal ctx cq n c0 N →
      (∀ c, c ∈ ctx → c.dir = decide (node_cmp c.key k < 0)) →
      (∀ pC rest, ctx = pC :: rest → pC.red = true → is_red q = false) →
      (∀ pC rest, ctx = pC :: rest → pC.red = true → trigger q →
        ∃ gC rest2, rest = gC :: rest2 ∧ is_red gC.sib = false) →
      (is_red q = true →
        ¬ trigger (getLink q (decide (node_cmp q.key k < 0))) ∨
        ∃ pC rest, ctx = pC :: rest ∧ is_red pC.sib = false) →
      (ctx = [] → is_red q = false) →
      ∀ r, insLoop k fuel ctx q = some r → ∃ c2, Balanced r c2 N := by
  intro fuel
  induction fuel with
  | zero =>
    intro ctx q cq n c0 _ _ _ _ _ _ _ r hr
    cases hr
  | succ fuel ih =>
    intro ctx q cq n c0 hq hctx hdirs hcalm hsafe hred hroot r hr
    cases q with
    | nil =>
      cases hq with
      | nil =>
        simp only [insLoop, Option.some_inj] at hr
        subst hr
        have hq1 : Balanced (new_node k) true 0 := .red .nil .nil
        obtain ⟨cq2, n2, c02, hq2, hctx2⟩ :=
          insFix_fit hq1 hctx (fun _ => rfl)
            (fun _ pC rest he hpr => hsafe pC rest he hpr (Or.inl rfl))
        exact ⟨c02, hctx2.fill hq2⟩
    | node qc ql qk qr =>
      cases hb : is_red ql && is_red qr with
      | true =>
        -- the color flip fires: the current node turns red, its children calm
        have hbb := hb
        simp only [Bool.and_eq_true] at hbb
        obtain ⟨hlred, hrred⟩ := hbb
        obtain ⟨hq1, hnL, hnR, hcq⟩ := flip_balanced hq hlred hrred
        subst hcq
        have htrig : trigger (Rbnode.node qc ql qk qr) :=
          Or.inr (Or.inr ⟨hlred, hrred⟩)
        have hq1eq : (if is_red ql && is_red qr then
            Rbnode.node true (setRed ql false) qk (setRed qr false)
          else Rbnode.node qc ql qk qr) =
            Rbnode.node true (setRed ql false) qk (setRed qr false) := by
          rw [hb]
          rfl
        obtain ⟨cq2, n2, c02, hq2, hctx2⟩ :=
          insFix_fit hq1 hctx (fun _ => rfl)
            (fun _ pC rest he hpr => hsafe pC rest he hpr htrig)
        by_cases hbreak : node_cmp qk k = 0
        · rw [insLoop_node_break k fuel ctx qc ql qk qr _ hq1eq hbreak] at hr
          simp only [Option.some_inj] at hr
          subst hr
          exact ⟨c02, hctx2.fill hq2⟩
        · cases hfx2 : (insFix ctx
              (Rbnode.node true (setRed ql false) qk (setRed qr false))).2 with
          | nil =>
            rw [insLoop_node_nil k fuel ctx qc ql qk qr _ hq1eq hbreak hfx2] at hr
            cases hr
          | node c2 l2 k2 r2 =>
            rw [insLoop_node_step k fuel ctx qc ql qk qr _ c2 l2 k2 r2
              hq1eq hbreak hfx2] at hr
            cases ctx with
            | nil =>
              have hfxEQ : insFix []
                  (Rbnode.node true (setRed ql false) qk (setRed qr false)) =
                  ([], Rbnode.node true (setRed ql false) qk (setRed qr false)) :=
                rfl
              have h2 : Rbnode.node true (setRed ql false) qk (setRed qr false) =
                  Rbnode.node c2 l2 k2 r2 := by
                rw [← hfx2, hfxEQ]
              injection h2 with e1 e2 e3 e4
              subst e1
              subst e2
              subst e3
              subst e4
              have hq2' : Balanced
                  (Rbnode.node true (setRed ql false) qk (setRed qr false))
                  cq2 n2 := by
                rw [hfx2] at hq2
                exact hq2
              exact insLoop_descend_calmred k N fuel ih _ _ _ _ cq2 n2 c02
                hq2' hctx2 (insFix_dirs k _ _ hdirs) hnL hnR r hr
            | cons pC rest =>
              cases hpr : pC.red with
              | false =>
                have hfxEQ := insFix_id_of_head_black pC rest
                  (Rbnode.node true (setRed ql false) qk (setRed qr false)) hpr
                have h2 : Rbnode.node true (setRed ql false) qk (setRed qr false) =
                    Rbnode.node c2 l2 k2 r2 := by
                  rw [← hfx2, hfxEQ]
                injection h2 with e1 e2 e3 e4
                subst e1
                subst e2
                subst e3
                subst e4
                have hq2' : Balanced
                    (Rbnode.node true (setRed ql false) qk (setRed qr false))
                    cq2 n2 := by
                  rw [hfx2] at hq2
                  exact hq2
                exact insLoop_descend_calmred k N fuel ih _ _ _ _ cq2 n2 c02
                  hq2' hctx2 (insFix_dirs k _ _ hdirs) hnL hnR r hr
              | true =>
                obtain ⟨gC, rest2, hrest, hgsib⟩ := hsafe pC rest rfl hpr htrig
                subst hrest
                by_cases hdd : pC.dir = gC.dir
                · -- straight: single rotation, the current node stays red
                  have hfxEQ := insFix_straight pC gC rest2
                    (Rbnode.node true (setRed ql false) qk (setRed qr false))
                    rfl hpr hdd
                  have h2 : Rbnode.node true (setRed ql false) qk
                      (setRed qr false) = Rbnode.node c2 l2 k2 r2 := by
                    rw [← hfx2, hfxEQ]
                  injection h2 with e1 e2 e3 e4
                  subst e1
                  subst e2
                  subst e3
                  subst e4
                  have hq2' : Balanced
                      (Rbnode.node true (setRed ql false) qk (setRed qr false))
                      cq2 n2 := by
                    rw [hfx2] at hq2
                    exact hq2
                  exact insLoop_descend_calmred k N fuel ih _ _ _ _ cq2 n2 c02
                    hq2' hctx2 (insFix_dirs k _ _ hdirs) hnL hnR r hr
                · -- zigzag: the current node becomes the black subtree root
                  obtain ⟨pr, pk, pd, psib⟩ := pC
                  obtain ⟨gr, gk, gd, gsib⟩ := gC
                  have hpr' : pr = true := hpr
                  subst hpr'
                  have hdd' : ¬ pd = gd := hdd
                  have hdB : ((pd : Bool) == gd) = false := by
                    cases pd <;> cases gd
                    · exact absurd rfl hdd'
                    · rfl
                    · rfl
                    · exact absurd rfl hdd'
                  have hfxEQ := insFix_zigzag
                    { red := true, key := pk, dir := pd, sib := psib }
                    { red := gr, key := gk, dir := gd, sib := gsib }
                    rest2 (setRed ql false) qk (setRed qr false) rfl hdB
                  have hdirsP : pd = decide (node_cmp pk k < 0) :=
                    hdirs _ (List.mem_cons_self _ _)
                  have hdirsG : gd = decide (node_cmp gk k < 0) :=
                    hdirs _ (List.mem_cons_of_mem _ (List.mem_cons_self _ _))
                  cases gd with
                  | true =>
                    have h2 : Rbnode.node false
                        (plugCrumb { red := true, key := gk, dir := true, sib := gsib } (setRed ql false))
                        qk
                        (plugCrumb { red := true, key := pk, dir := pd, sib := psib } (setRed qr false)) =
                        Rbnode.node c2 l2 k2 r2 := by
                      rw [← hfx2, hfxEQ]
                      rfl
                    injection h2 with e1 e2 e3 e4
                    subst e1
                    subst e2
                    subst e3
                    subst e4
                    have hq2' : Balanced (Rbnode.node false
                        (plugCrumb { red := true, key := gk, dir := true, sib := gsib } (setRed ql false))
                        qk
                        (plugCrumb { red := true, key := pk, dir := pd, sib := psib } (setRed qr false)))
                        cq2 n2 := by
                      rw [hfx2] at hq2
                      exact hq2
                    refine insLoop_descend k N fuel ih _ _ _ _ _ cq2 n2 c02 _
                      hq2' hctx2 (insFix_dirs k _ _ hdirs) rfl ?_ ?_ r hr
                    · intro h
                      simp at h
                    · cases hdv : decide (node_cmp qk k < 0)
                      · intro _
                        refine Or.inl ?_
                        show ¬ trigger (getLink
                          (plugCrumb { red := true, key := gk, dir := true, sib := gsib } (setRed ql false))
                          (decide (node_cmp (plugCrumb { red := true, key := gk, dir := true, sib := gsib } (setRed ql false)).key k < 0)))
                        rw [plugCrumb_key, ← hdirsG, getLink_plugCrumb_dir]
                        exact hnL
                      · intro _
                        refine Or.inl ?_
                        show ¬ trigger (getLink
                          (plugCrumb { red := true, key := pk, dir := pd, sib := psib } (setRed qr false))
                          (decide (node_cmp (plugCrumb { red := true, key := pk, dir := pd, sib := psib } (setRed qr false)).key k < 0)))
                        rw [plugCrumb_key, ← hdirsP, getLink_plugCrumb_dir]
                        exact hnR
                  | false =>
                    have h2 : Rbnode.node false
                        (plugCrumb { red := true, key := pk, dir := pd, sib := psib } (setRed ql false))
                        qk
                        (plugCrumb { red := true, key := gk, dir := false, sib := gsib } (setRed qr false)) =
                        Rbnode.node c2 l2 k2 r2 := by
                      rw [← hfx2, hfxEQ]
                      rfl
                    injection h2 with e1 e2 e3 e4
                    subst e1
                    subst e2
                    subst e3
                    subst e4
                    have hq2' : Balanced (Rbnode.node false
                        (plugCrumb { red := true, key := pk, dir := pd, sib := psib } (setRed ql false))
                        qk
                        (plugCrumb { red := true, key := gk, dir := false, sib := gsib } (setRed qr false)))
                        cq2 n2 := by
                      rw [hfx2] at hq2
                      exact hq2
                    refine insLoop_descend k N fuel ih _ _ _ _ _ cq2 n2 c02 _
                      hq2' hctx2 (insFix_dirs k _ _ hdirs) rfl ?_ ?_ r hr
                    · intro h
                      simp at h
                    · cases hdv : decide (node_cmp qk k < 0)
                      · intro _
                        refine Or.inl ?_
                        show ¬ trigger (getLink
                          (plugCrumb { red := true, key := pk, dir := pd, sib := psib } (setRed ql false))
                          (decide (node_cmp (plugCrumb { red := true, key := pk, dir := pd, sib := psib } (setRed ql false)).key k < 0)))
                        rw [plugCrumb_key, ← hdirsP, getLink_plugCrumb_dir]
                        exact hnL
                      · intro _
                        refine Or.inl ?_
                        show ¬ trigger (getLink
                          (plugCrumb { red := true, key := gk, dir := false, sib := gsib } (setRed qr false))
                          (decide (node_cmp (plugCrumb { red := true, key := gk, dir := false, sib := gsib } (setRed qr false)).key k < 0)))
                        rw [plugCrumb_key, ← hdirsG, getLink_plugCrumb_dir]
                        exact hnR
      | false =>
        -- no color flip: the current node is unchanged
        have hq1eq : (if is_red ql && is_red qr then
            Rbnode.node true (setRed ql false) qk (setRed qr false)
          else Rbnode.node qc ql qk qr) = Rbnode.node qc ql qk qr := by
          rw [hb]
          rfl
        obtain ⟨cq2, n2, c02, hq2, hctx2⟩ :=
          insFix_fit hq hctx (fun h => h)
            (fun h pC rest he hpr => hsafe pC rest he hpr
              (Or.inr (Or.inl (hq.is_red_eq.trans h))))
        by_cases hbreak : node_cmp qk k = 0
        · rw [insLoop_node_break k fuel ctx qc ql qk qr _ hq1eq hbreak] at hr
          simp only [Option.some_inj] at hr
          subst hr
          exact ⟨c02, hctx2.fill hq2⟩
        · cases hfx2 : (insFix ctx (Rbnode.node qc ql qk qr)).2 with
          | nil =>
            rw [insLoop_node_nil k fuel ctx qc ql qk qr _ hq1eq hbreak hfx2] at hr
            cases hr
          | node c2 l2 k2 r2 =>
            rw [insLoop_node_step k fuel ctx qc ql qk qr _ c2 l2 k2 r2
              hq1eq hbreak hfx2] at hr
            cases hqc : qc with
            | false =>
              -- black current node: the fixup is the identity
              subst hqc
              have hfxEQ := insFix_id_of_black ctx (Rbnode.node false ql qk qr)
                rfl
              have h2 : Rbnode.node false ql qk qr = Rbnode.node c2 l2 k2 r2 := by
                rw [← hfx2, hfxEQ]
              injection h2 with e1 e2 e3 e4
              subst e1
              subst e2
              subst e3
              subst e4
              have hq2' : Balanced (Rbnode.node false ql qk qr) cq2 n2 := by
                rw [hfx2] at hq2
                exact hq2
              refine insLoop_descend k N fuel ih _ _ _ _ _ cq2 n2 c02 _
                hq2' hctx2 (insFix_dirs k _ _ hdirs) rfl ?_ ?_ r hr
              · intro h
                simp at h
              · cases hdv : decide (node_cmp qk k < 0)
                · intro habs
                  refine Or.inr ?_
                  have habs' : is_red ql = true := habs
                  cases hqr2 : is_red qr
                  · exact hqr2
                  · rw [habs', hqr2] at hb
                    simp at hb
                · intro habs
                  refine Or.inr ?_
                  have habs' : is_red qr = true := habs
                  cases hql2 : is_red ql
                  · exact hql2
                  · rw [habs', hql2] at hb
                    simp at hb
            | true =>
              -- red current node at arrival: its parent crumb is black
              subst hqc
              have hcqt : cq = true := hq.is_red_eq.symm
              subst hcqt
              cases ctx with
              | nil =>
                have h0 := hroot rfl
                simp [is_red] at h0
              | cons pC rest =>
                have hprf : pC.red = false := by
                  cases hpv : pC.red
                  · rfl
                  · exact absurd (hcalm pC rest rfl hpv) (by simp [is_red])
                have hfxEQ := insFix_id_of_head_black pC rest
                  (Rbnode.node true ql qk qr) hprf
                have h2 : Rbnode.node true ql qk qr = Rbnode.node c2 l2 k2 r2 := by
                  rw [← hfx2, hfxEQ]
                injection h2 with e1 e2 e3 e4
                subst e1
                subst e2
                subst e3
                subst e4
                have hq2' : Balanced (Rbnode.node true ql qk qr) cq2 n2 := by
                  rw [hfx2] at hq2
                  exact hq2
                cases hq with
                | red hbl hbr =>
                  refine insLoop_descend k N fuel ih _ _ _ _ _ cq2 n2 c02 _
                    hq2' hctx2 (insFix_dirs k _ _ hdirs) rfl ?_ ?_ r hr
                  · intro _ htr
                    rcases hred rfl with hnt | ⟨pC', rest', he, hsib⟩
                    · exact absurd htr hnt
                    · cases he
                      refine ⟨pC, rest, ?_, hsib⟩
                      rw [hfxEQ]
                  · cases hdv : decide (node_cmp qk k < 0)
                    · intro habs
                      have habs' : is_red ql = true := habs
                      rw [hbl.is_red_eq] at habs'
                      simp at habs'
                    · intro habs
                      have habs' : is_red qr = true := habs
                      rw [hbr.is_red_eq] at habs'
                      simp at habs'

/-- `jsw_rbinsert` on a tree satisfying the red-black invariants yields a
tree satisfying them again (whenever the bounded transcription of the loop
completed). -/
theorem jsw_rbinsert_isRB (fuel : Nat) (t : Rbnode) (k : Int)
    (res : Int × Rbnode) (hRB : isRB t)
    (h : jsw_rbinsert fuel t k = some res) : isRB res.2 := by
  cases t with
  | nil =>
    simp only [jsw_rbinsert, Option.some_inj] at h
    subst h
    rw [isRB_iff_balanced]
    exact ⟨1, .black .nil .nil⟩
  | node c l k0 r =>
    rw [isRB_iff_balanced] at hRB
    obtain ⟨n, hbal⟩ := hRB
    cases hloop : insLoop k fuel [] (.node c l k0 r) with
    | none =>
      simp only [jsw_rbinsert, hloop] at h
      exact Option.noConfusion h
    | some rt =>
      simp only [jsw_rbinsert, hloop, Option.some_inj] at h
      subst h
      obtain ⟨c2, hb2⟩ := insLoop_balanced k n fuel [] (.node c l k0 r) false n
        false hbal .nil (by intro c3 hc; cases hc) (by intro pC rest he; cases he)
        (by intro pC rest he; cases he)
        (by intro hred; rw [hbal.is_red_eq] at hred; cases hred)
        (fun _ => hbal.is_red_eq) rt hloop
      obtain ⟨n2, hb3⟩ := setRed_false_balanced hb2
      rw [isRB_iff_balanced]
      exact ⟨n2, hb3⟩



/-! ## The erase pass preserves the balance invariants -/

theorem Balanced.as_black {t : Rbnode} {c : Bool} {n : Nat}
    (h : Balanced t c n) (hr : is_red t = false) : Balanced t false n := by
  cases c with
  | false => exact h
  | true =>
    rw [h.is_red_eq] at hr
    cases hr

theorem Balanced.as_red {t : Rbnode} {c : Bool} {n : Nat}
    (h : Balanced t c n) (hr : is_red t = true) : Balanced t true n := by
  cases c with
  | true => exact h
  | false =>
    rw [h.is_red_eq] at hr
    cases hr

theorem Balanced.ne_nil_of_pos {t : Rbnode} {c : Bool} {n : Nat}
    (h : Balanced t c n) (hn : 0 < n) : t ≠ .nil := by
  cases h with
  | nil => exact absurd hn (by omega)
  | red hl hr => exact fun hx => Rbnode.noConfusion hx
  | black hl hr => exact fun hx => Rbnode.noConfusion hx

/-- A context whose hole expects a red subtree also accepts a black one of
the same black-height (the crumb directly above cannot be red). -/
theorem CtxBal_weaken {ctx : List Crumb} {n : Nat} {c0 : Bool} {N : Nat}
    (h : CtxBal ctx true n c0 N) : ∃ c0', CtxBal ctx false n c0' N := by
  cases h with
  | nil => exact ⟨false, .nil⟩
  | black hsib hrest => exact ⟨c0, .black hsib hrest⟩

/-- Replacing a stored crumb key does not affect the balance bookkeeping. -/
theorem setCrumbKey_CtxBal : ∀ (ctx : List Crumb) (i : Nat) (k' : Int)
    {c : Bool} {n : Nat} {c0 : Bool} {N : Nat},
    CtxBal ctx c n c0 N → CtxBal (setCrumbKey ctx i k') c n c0 N := by
  intro ctx
  induction ctx with
  | nil =>
    intro i k' c n c0 N h
    exact h
  | cons pC rest ih =>
    intro i k' c n c0 N h
    cases i with
    | zero =>
      cases h with
      | red hsib hrest => exact .red hsib hrest
      | black hsib hrest => exact .black hsib hrest
    | succ j =>
      cases h with
      | red hsib hrest => exact .red hsib (ih j k' hrest)
      | black hsib hrest => exact .black hsib (ih j k' hrest)

/-! Computed forms of `eraseFix`, one per reachable branch. -/

/-- Lines 267-268: a red current node needs no fixing. -/
theorem eraseFix_skip1 (ctx : List Crumb) (q : Rbnode) (dir : Bool)
    (fCtx : Option Nat) (h : is_red q = true) :
    eraseFix ctx q dir fCtx = (ctx, q, fCtx) := by
  simp [eraseFix, h]

/-- Lines 267-268: a red child ahead needs no fixing. -/
theorem eraseFix_skip2 (ctx : List Crumb) (q : Rbnode) (dir : Bool)
    (fCtx : Option Nat) (h : is_red (getLink q dir) = true) :
    eraseFix ctx q dir fCtx = (ctx, q, fCtx) := by
  simp [eraseFix, h]

/-- Line 270: single rotation at the current node. -/
theorem eraseFix_caseA (ctx : List Crumb) (q : Rbnode) (dir : Bool)
    (fCtx : Option Nat) (hq : is_red q = false)
    (hcd : is_red (getLink q dir) = false)
    (hcs : is_red (getLink q (!dir)) = true)
    (sc : Bool) (sl : Rbnode) (sk : Int) (sr : Rbnode)
    (hs : getLink q (!dir) = .node sc sl sk sr) :
    eraseFix ctx q dir fCtx =
      ({ red := false, key := sk, dir := dir, sib := if dir then sl else sr } :: ctx,
       setRed (setLink q (!dir) (if dir then sr else sl)) true,
       fCtx.map Nat.succ) := by
  have hsc : sc = true := by
    rw [hs] at hcs
    exact hcs
  subst hsc
  simp [eraseFix, hq, hcd, hs, show is_red (Rbnode.node true sl sk sr) = true from rfl]

/-- Line 274 with the stack sentinel as parent: nothing to do. -/
theorem eraseFix_rootSkip (q : Rbnode) (dir : Bool) (fCtx : Option Nat)
    (hq : is_red q = false) (hcd : is_red (getLink q dir) = false)
    (hcs : is_red (getLink q (!dir)) = false) :
    eraseFix [] q dir fCtx = ([], q, fCtx) := by
  simp [eraseFix, hq, hcd, hcs]

/-- Lines 275-280: the color flip. -/
theorem eraseFix_flip (pC : Crumb) (rest : List Crumb) (q : Rbnode)
    (dir : Bool) (fCtx : Option Nat)
    (hq : is_red q = false) (hcd : is_red (getLink q dir) = false)
    (hcs : is_red (getLink q (!dir)) = false)
    (hsib : ¬ pC.sib = .nil)
    (h1 : is_red (getLink pC.sib (!pC.dir)) = false)
    (h2 : is_red (getLink pC.sib pC.dir) = false) :
    eraseFix (pC :: rest) q dir fCtx =
      ({ pC with red := false, sib := setRed pC.sib true } :: rest,
       setRed q true, fCtx) := by
  simp [eraseFix, hq, hcd, hcs, hsib, h1, h2]

/-- Line 285: double rotation at the parent. -/
theorem eraseFix_double (pC : Crumb) (rest : List Crumb) (q : Rbnode)
    (dir : Bool) (fCtx : Option Nat)
    (hq : is_red q = false) (hcd : is_red (getLink q dir) = false)
    (hcs : is_red (getLink q (!dir)) = false)
    (hsib : ¬ pC.sib = .nil)
    (h2 : is_red (getLink pC.sib pC.dir) = true)
    (s2c : Bool) (s2l : Rbnode) (s2k : Int) (s2r : Rbnode)
    (hs2 : getLink pC.sib pC.dir = .node s2c s2l s2k s2r) :
    eraseFix (pC :: rest) q dir fCtx =
      ({ red := false, key := pC.key, dir := pC.dir,
         sib := if pC.dir then s2r else s2l } ::
       { red := true, key := s2k, dir := pC.dir,
         sib := setRed (setLink pC.sib pC.dir (if pC.dir then s2l else s2r)) false } ::
       rest,
       setRed q true,
       fCtx.map fun i => if i = 0 then 0 else i + 1) := by
  have hsc : s2c = true := by
    rw [hs2] at h2
    exact h2
  subst hsc
  simp [eraseFix, hq, hcd, hcs, hsib, hs2,
    show is_red (Rbnode.node true s2l s2k s2r) = true from rfl]

/-- Line 287: single rotation at the parent. -/
theorem eraseFix_single (pC : Crumb) (rest : List Crumb) (q : Rbnode)
    (dir : Bool) (fCtx : Option Nat)
    (hq : is_red q = false) (hcd : is_red (getLink q dir) = false)
    (hcs : is_red (getLink q (!dir)) = false)
    (hsib : ¬ pC.sib = .nil)
    (h1 : is_red (getLink pC.sib (!pC.dir)) = true)
    (h2 : is_red (getLink pC.sib pC.dir) = false) :
    eraseFix (pC :: rest) q dir fCtx =
      ({ red := false, key := pC.key, dir := pC.dir,
         sib := getLink pC.sib pC.dir } ::
       { red := true, key := pC.sib.key, dir := pC.dir,
         sib := setRed (getLink pC.sib (!pC.dir)) false } ::
       rest,
       setRed q true,
       fCtx.map fun i => if i = 0 then 0 else i + 1) := by
  simp [eraseFix, hq, hcd, hcs, hsib, h1, h2]

theorem setRed_black_of_red {t : Rbnode} {m : Nat} (h : Balanced t true m) :
    Balanced (setRed t false) false (m + 1) := by
  cases h with
  | red hl hr => exact .black hl hr

/-- The red-push fixup (lines 267-296) turns a fitting window into a
fitting window: the rebuilt window is balanced (possibly at a smaller
overall black-height when the parent is the root), and afterwards the
current node is red, or the child ahead is red, or the chain is empty
with an untouched black current node whose other child is black.  The
hypothesis `hEB` is the loop invariant: the current node is red, or the
child ahead is red, or the parent crumb is red, or the chain is empty,
or the chain is the single black root crumb with a black sibling. -/
theorem eraseFix_fit (ctx : List Crumb) (q : Rbnode) (dir : Bool)
    (fCtx : Option Nat) {cq : Bool} {n : Nat} {c0 : Bool} {N : Nat}
    (hq : Balanced q cq n) (hctx : CtxBal ctx cq n c0 N) (hne : q ≠ .nil)
    (hEB : is_red q = true ∨ is_red (getLink q dir) = true ∨
      (∃ pC rest, ctx = pC :: rest ∧ pC.red = true) ∨ ctx = [] ∨
      (∃ pC, ctx = [pC] ∧ pC.red = false ∧ is_red pC.sib = false)) :
    ∃ cq' n' c0' N', Balanced (eraseFix ctx q dir fCtx).2.1 cq' n' ∧
      CtxBal (eraseFix ctx q dir fCtx).1 cq' n' c0' N' ∧
      (is_red (eraseFix ctx q dir fCtx).2.1 = true ∨
       is_red (getLink (eraseFix ctx q dir fCtx).2.1 dir) = true ∨
       ((eraseFix ctx q dir fCtx).1 = [] ∧
        is_red (eraseFix ctx q dir fCtx).2.1 = false ∧
        is_red (getLink (eraseFix ctx q dir fCtx).2.1 (!dir)) = false)) := by
  cases hq1 : is_red q with
  | true =>
    rw [eraseFix_skip1 ctx q dir fCtx hq1]
    exact ⟨cq, n, c0, N, hq, hctx, Or.inl hq1⟩
  | false =>
    cases hcd : is_red (getLink q dir) with
    | true =>
      rw [eraseFix_skip2 ctx q dir fCtx hcd]
      exact ⟨cq, n, c0, N, hq, hctx, Or.inr (Or.inl hcd)⟩
    | false =>
      have hcq : cq = false := hq.is_red_eq.symm.trans hq1
      subst hcq
      cases q with
      | nil => exact absurd rfl hne
      | node qc0 ql0 qk0 qr0 =>
        cases hq with
        | black hbl hbr =>
          rename_i cl cr m
          cases hcs : is_red (getLink (Rbnode.node false ql0 qk0 qr0) (!dir)) with
          | true =>
            -- case a (line 270): single rotation at the current node
            have hsaveb : Balanced (getLink (Rbnode.node false ql0 qk0 qr0) (!dir))
                true m := by
              cases dir
              · exact hbr.as_red hcs
              · exact hbl.as_red hcs
            cases hsave : getLink (Rbnode.node false ql0 qk0 qr0) (!dir) with
            | nil =>
              rw [hsave] at hcs
              cases hcs
            | node sc2 sl sk sr =>
              rw [hsave] at hsaveb
              cases hsaveb with
              | red hsl hsr =>
                rw [eraseFix_caseA ctx _ dir fCtx hq1 hcd hcs true sl sk sr hsave]
                have hq' : Balanced (setRed (setLink (Rbnode.node false ql0 qk0 qr0)
                    (!dir) (if dir then sr else sl)) true) true m := by
                  cases dir
                  · exact .red (hbl.as_black hcd) hsl
                  · exact .red hsr (hbr.as_black hcd)
                have hsib' : Balanced (if dir then sl else sr) false m := by
                  cases dir
                  · exact hsr
                  · exact hsl
                exact ⟨true, m, c0, N, hq', .black hsib' hctx, Or.inl hq'.is_red_eq⟩
          | false =>
            -- both children of the current node are black
            have hbl' : Balanced ql0 false m := by
              cases dir
              · exact hbl.as_black hcd
              · exact hbl.as_black hcs
            have hbr' : Balanced qr0 false m := by
              cases dir
              · exact hbr.as_black hcs
              · exact hbr.as_black hcd
            have hqred : Balanced (setRed (Rbnode.node false ql0 qk0 qr0) true)
                true m := .red hbl' hbr'
            cases ctx with
            | nil =>
              rw [eraseFix_rootSkip _ dir fCtx hq1 hcd hcs]
              exact ⟨false, m + 1, c0, N, .black hbl hbr, hctx,
                Or.inr (Or.inr ⟨rfl, hq1, hcs⟩)⟩
            | cons pC rest =>
              obtain ⟨pr, pk, pd, psib⟩ := pC
              cases pr with
              | true =>
                -- the parent crumb is red: its sibling is black of full height
                cases hctx with
                | red hsibb hrest =>
                  cases psib with
                  | nil => cases hsibb
                  | node sc s0 sk0 s1 =>
                    cases hsibb with
                    | black hs0 hs1 =>
                      rename_i cs0 cs1
                      cases hin : is_red (getLink (Rbnode.node false s0 sk0 s1) pd) with
                      | false =>
                        cases hout : is_red (getLink (Rbnode.node false s0 sk0 s1) (!pd)) with
                        | false =>
                          -- color flip (lines 275-280)
                          have hs0' : Balanced s0 false m := by
                            cases pd
                            · exact hs0.as_black hin
                            · exact hs0.as_black hout
                          have hs1' : Balanced s1 false m := by
                            cases pd
                            · exact hs1.as_black hout
                            · exact hs1.as_black hin
                          rw [eraseFix_flip
                            { red := true, key := pk, dir := pd,
                              sib := Rbnode.node false s0 sk0 s1 } rest
                            (Rbnode.node false ql0 qk0 qr0) dir fCtx hq1 hcd hcs
                            (fun h => Rbnode.noConfusion h) hout hin]
                          obtain ⟨c0', hrest'⟩ := CtxBal_weaken hrest
                          exact ⟨true, m, c0', N, hqred,
                            .black (.red hs0' hs1') hrest', Or.inl hqred.is_red_eq⟩
                        | true =>
                          -- single rotation at the parent (line 287)
                          have hinner : Balanced (getLink (Rbnode.node false s0 sk0 s1) pd)
                              false m := by
                            cases pd
                            · exact hs0.as_black hin
                            · exact hs1.as_black hin
                          have houter : Balanced (getLink (Rbnode.node false s0 sk0 s1) (!pd))
                              true m := by
                            cases pd
                            · exact hs1.as_red hout
                            · exact hs0.as_red hout
                          rw [eraseFix_single
                            { red := true, key := pk, dir := pd,
                              sib := Rbnode.node false s0 sk0 s1 } rest
                            (Rbnode.node false ql0 qk0 qr0) dir fCtx hq1 hcd hcs
                            (fun h => Rbnode.noConfusion h) hout hin]
                          exact ⟨true, m, c0, N, hqred,
                            .black hinner (.red (setRed_black_of_red houter) hrest),
                            Or.inl hqred.is_red_eq⟩
                      | true =>
                        -- double rotation at the parent (line 285)
                        have hinb : Balanced (getLink (Rbnode.node false s0 sk0 s1) pd)
                            true m := by
                          cases pd
                          · exact hs0.as_red hin
                          · exact hs1.as_red hin
                        cases htin : getLink (Rbnode.node false s0 sk0 s1) pd with
                        | nil =>
                          rw [htin] at hin
                          cases hin
                        | node ic i1 ik i2 =>
                          rw [htin] at hinb
                          cases hinb with
                          | red hi1 hi2 =>
                            rw [eraseFix_double
                              { red := true, key := pk, dir := pd,
                                sib := Rbnode.node false s0 sk0 s1 } rest
                              (Rbnode.node false ql0 qk0 qr0) dir fCtx hq1 hcd hcs
                              (fun h => Rbnode.noConfusion h) hin true i1 ik i2 htin]
                            have hsibA : Balanced (if pd then i2 else i1) false m := by
                              cases pd
                              · exact hi1
                              · exact hi2
                            have hsmod : Balanced (setRed (setLink
                                (Rbnode.node false s0 sk0 s1) pd
                                (if pd then i1 else i2)) false) false (m + 1) := by
                              cases pd
                              · exact .black hi2 hs1
                              · exact .black hs0 hi1
                            exact ⟨true, m, c0, N, hqred,
                              .black hsibA (.red hsmod hrest),
                              Or.inl hqred.is_red_eq⟩
              | false =>
                -- the parent crumb is black: by the invariant it is the single
                -- root crumb and its sibling is black
                have hspec : rest = [] ∧ is_red psib = false := by
                  rcases hEB with h | h | ⟨pC', rest', he, hprr⟩ | he | ⟨pC', he, hpr2, hsb⟩
                  · cases h
                  · rw [h] at hcd
                    cases hcd
                  · cases he
                    cases hprr
                  · cases he
                  · cases he
                    exact ⟨rfl, hsb⟩
                obtain ⟨hrest0, hsb⟩ := hspec
                subst hrest0
                cases hctx with
                | black hsibb hrest =>
                  cases hrest with
                  | nil =>
                    have hsibb' : Balanced psib false (m + 1) := hsibb.as_black hsb
                    cases psib with
                    | nil => cases hsibb'
                    | node sc s0 sk0 s1 =>
                      cases hsibb' with
                      | black hs0 hs1 =>
                        rename_i cs0 cs1
                        cases hin : is_red (getLink (Rbnode.node false s0 sk0 s1) pd) with
                        | false =>
                          cases hout : is_red (getLink (Rbnode.node false s0 sk0 s1) (!pd)) with
                          | false =>
                            -- color flip below the black root
                            have hs0' : Balanced s0 false m := by
                              cases pd
                              · exact hs0.as_black hin
                              · exact hs0.as_black hout
                            have hs1' : Balanced s1 false m := by
                              cases pd
                              · exact hs1.as_black hout
                              · exact hs1.as_black hin
                            rw [eraseFix_flip
                              { red := false, key := pk, dir := pd,
                                sib := Rbnode.node false s0 sk0 s1 } []
                              (Rbnode.node false ql0 qk0 qr0) dir fCtx hq1 hcd hcs
                              (fun h => Rbnode.noConfusion h) hout hin]
                            exact ⟨true, m, false, m + 1, hqred,
                              .black (.red hs0' hs1') .nil, Or.inl hqred.is_red_eq⟩
                          | true =>
                            -- single rotation below the black root
                            have hinner : Balanced (getLink (Rbnode.node false s0 sk0 s1) pd)
                                false m := by
                              cases pd
                              · exact hs0.as_black hin
                              · exact hs1.as_black hin
                            have houter : Balanced (getLink (Rbnode.node false s0 sk0 s1) (!pd))
                                true m := by
                              cases pd
                              · exact hs1.as_red hout
                              · exact hs0.as_red hout
                            rw [eraseFix_single
                              { red := false, key := pk, dir := pd,
                                sib := Rbnode.node false s0 sk0 s1 } []
                              (Rbnode.node false ql0 qk0 qr0) dir fCtx hq1 hcd hcs
                              (fun h => Rbnode.noConfusion h) hout hin]
                            exact ⟨true, m, true, m + 1, hqred,
                              .black hinner (.red (setRed_black_of_red houter) .nil),
                              Or.inl hqred.is_red_eq⟩
                        | true =>
                          -- double rotation below the black root
                          have hinb : Balanced (getLink (Rbnode.node false s0 sk0 s1) pd)
                              true m := by
                            cases pd
                            · exact hs0.as_red hin
                            · exact hs1.as_red hin
                          cases htin : getLink (Rbnode.node false s0 sk0 s1) pd with
                          | nil =>
                            rw [htin] at hin
                            cases hin
                          | node ic i1 ik i2 =>
                            rw [htin] at hinb
                            cases hinb with
                            | red hi1 hi2 =>
                              rw [eraseFix_double
                                { red := false, key := pk, dir := pd,
                                  sib := Rbnode.node false s0 sk0 s1 } []
                                (Rbnode.node false ql0 qk0 qr0) dir fCtx hq1 hcd hcs
                                (fun h => Rbnode.noConfusion h) hin true i1 ik i2 htin]
                              have hsibA : Balanced (if pd then i2 else i1) false m := by
                                cases pd
                                · exact hi1
                                · exact hi2
                              have hsmod : Balanced (setRed (setLink
                                  (Rbnode.node false s0 sk0 s1) pd
                                  (if pd then i1 else i2)) false) false (m + 1) := by
                                cases pd
                                · exact .black hi2 hs1
                                · exact .black hs0 hi1
                              exact ⟨true, m, true, m + 1, hqred,
                                .black hsibA (.red hsmod .nil),
                                Or.inl hqred.is_red_eq⟩

/-- Step equation for the erase loop: `q->link[dir]` is `NULL`, leave the
loop and run the replace/remove pass. -/
theorem eraseLoop_exit (k : Int) (fuel : Nat) (ctx : List Crumb) (q : Rbnode)
    (dir fIsQ : Bool) (fCtx : Option Nat)
    (h : getLink (eraseFix ctx q dir fCtx).2.1 dir = .nil) :
    eraseLoop k (fuel + 1) ctx q dir fIsQ fCtx =
      eraseFinish (eraseFix ctx q dir fCtx).1 (eraseFix ctx q dir fCtx).2.1
        fIsQ (eraseFix ctx q dir fCtx).2.2 := by
  simp only [eraseLoop]
  rw [h]

/-- Step equation for the erase loop: move the window down. -/
theorem eraseLoop_step (k : Int) (fuel : Nat) (ctx : List Crumb) (q : Rbnode)
    (dir fIsQ : Bool) (fCtx : Option Nat) (c2 : Bool) (l2 : Rbnode) (qk2 : Int)
    (r2 : Rbnode)
    (h : getLink (eraseFix ctx q dir fCtx).2.1 dir = .node c2 l2 qk2 r2) :
    eraseLoop k (fuel + 1) ctx q dir fIsQ fCtx =
      eraseLoop k fuel
        ({ red := is_red (eraseFix ctx q dir fCtx).2.1,
           key := ((eraseFix ctx q dir fCtx).2.1).key, dir := dir,
           sib := getLink (eraseFix ctx q dir fCtx).2.1 (!dir) } ::
          (eraseFix ctx q dir fCtx).1)
        (.node c2 l2 qk2 r2)
        (decide (node_cmp qk2 k < 0)) (decide (node_cmp qk2 k = 0))
        (if node_cmp qk2 k = 0 then none
         else if fIsQ then some 0
         else ((eraseFix ctx q dir fCtx).2.2).map Nat.succ) := by
  simp only [eraseLoop]
  rw [h]

/-- Splicing out the bottom node (lines 306-307): under the loop exit
conditions the tree rebuilt around the node's only child is balanced. -/
theorem splice_fit (ctx : List Crumb) (q : Rbnode) (dir : Bool)
    {cq : Bool} {n : Nat} {c0 : Bool} {N : Nat}
    (hq : Balanced q cq n) (hctx : CtxBal ctx cq n c0 N)
    (hnil : getLink q dir = .nil) (hspec : cq = true ∨ ctx = []) :
    ∃ c2 n2, Balanced
      (plug ctx (if getLink q false = .nil then getLink q true else getLink q false))
      c2 n2 := by
  cases hq with
  | nil =>
    exact ⟨c0, N, hctx.fill .nil⟩
  | red hl hr =>
    rename_i l r x
    obtain ⟨c0', hctx'⟩ := CtxBal_weaken hctx
    cases dir
    · have hl0 : l = .nil := hnil
      subst hl0
      cases hl
      cases hr
      exact ⟨c0', N, hctx'.fill .nil⟩
    · have hr0 : r = .nil := hnil
      subst hr0
      cases hr
      cases hl
      exact ⟨c0', N, hctx'.fill .nil⟩
  | black hl hr =>
    rename_i l r x cl cr m
    have hctx0 : ctx = [] := by
      cases hspec with
      | inl h => cases h
      | inr h => exact h
    subst hctx0
    cases dir
    · have hl0 : l = .nil := hnil
      subst hl0
      cases hl
      exact ⟨cr, 0, hr⟩
    · have hr0 : r = .nil := hnil
      subst hr0
      cases hr
      by_cases hl0 : l = .nil
      · subst hl0
        exact ⟨false, 0, .nil⟩
      · show ∃ c2 n2, Balanced
          (if l = Rbnode.nil then Rbnode.nil else l) c2 n2
        rw [if_neg hl0]
        exact ⟨cl, 0, hl⟩

/-- The replace/remove pass (lines 299-311) started from a balanced exit
window yields a balanced tree. -/
theorem eraseFinish_fit (ctx : List Crumb) (q : Rbnode) (fIsQ : Bool)
    (fCtx : Option Nat) (dir : Bool) {cq : Bool} {n : Nat} {c0 : Bool} {N : Nat}
    (hq : Balanced q cq n) (hctx : CtxBal ctx cq n c0 N)
    (hnil : getLink q dir = .nil) (hspec : cq = true ∨ ctx = []) :
    ∃ c2 n2, Balanced (eraseFinish ctx q fIsQ fCtx) c2 n2 := by
  cases fIsQ with
  | false =>
    cases fCtx with
    | none => exact ⟨c0, N, hctx.fill hq⟩
    | some i =>
      exact splice_fit (setCrumbKey ctx i q.key) q dir hq
        (setCrumbKey_CtxBal ctx i q.key hctx) hnil
        (Or.imp id (fun h => by subst h; rfl) hspec)
  | true =>
    exact splice_fit ctx q dir hq hctx hnil hspec

/-- The erase loop (lines 252-297 plus the final pass), started from a
fitting window with enough fuel, returns a balanced tree.  The invariant
is the red-push property: the current node is red, or the child ahead is
red, or the parent crumb is red, or the chain is empty (the first
iteration), or the chain is the single black root crumb with a black
sibling (the second iteration after an untouched root). -/
theorem eraseLoop_balanced (k : Int) :
    ∀ (fuel : Nat) (ctx : List Crumb) (q : Rbnode) (dir fIsQ : Bool)
      (fCtx : Option Nat) (cq : Bool) (n : Nat) (c0 : Bool) (N : Nat),
      Balanced q cq n → CtxBal ctx cq n c0 N → q ≠ .nil →
      (is_red q = true ∨ is_red (getLink q dir) = true ∨
        (∃ pC rest, ctx = pC :: rest ∧ pC.red = true) ∨ ctx = [] ∨
        (∃ pC, ctx = [pC] ∧ pC.red = false ∧ is_red pC.sib = false)) →
      q.size < fuel →
      ∃ c2 n2, Balanced (eraseLoop k fuel ctx q dir fIsQ fCtx) c2 n2 := by
  intro fuel
  induction fuel with
  | zero =>
    intro ctx q dir fIsQ fCtx cq n c0 N _ _ _ _ hsz
    omega
  | succ fuel ih =>
    intro ctx q dir fIsQ fCtx cq n c0 N hq hctx hne hEB hsz
    obtain ⟨cq', n', c0', N', hq', hctx', hpost⟩ :=
      eraseFix_fit ctx q dir fCtx hq hctx hne hEB
    cases hch : getLink (eraseFix ctx q dir fCtx).2.1 dir with
    | nil =>
      rw [eraseLoop_exit k fuel ctx q dir fIsQ fCtx hch]
      refine eraseFinish_fit _ _ fIsQ _ dir hq' hctx' hch ?_
      rcases hpost with h | h | ⟨h1, h2, h3⟩
      · exact Or.inl (hq'.is_red_eq.symm.trans h)
      · rw [hch] at h
        cases h
      · exact Or.inr h1
    | node c2 l2 qk2 r2 =>
      rw [eraseLoop_step k fuel ctx q dir fIsQ fCtx c2 l2 qk2 r2 hch]
      have hne' : (eraseFix ctx q dir fCtx).2.1 ≠ .nil := by
        intro h0
        rw [h0] at hch
        exact Rbnode.noConfusion hch
      obtain ⟨cc, nc, hq3, hctx3⟩ := step_down _ dir hq' hctx' hne'
      rw [hch] at hq3
      refine ih _ _ _ _ _ cc nc c0' N' hq3 hctx3 (by intro h0; cases h0) ?_ ?_
      · rcases hpost with h | h | ⟨h1, h2, h3⟩
        · exact Or.inr (Or.inr (Or.inl ⟨_, _, rfl, h⟩))
        · rw [hch] at h
          exact Or.inl h
        · exact Or.inr (Or.inr (Or.inr (Or.inr
            ⟨{ red := is_red (eraseFix ctx q dir fCtx).2.1,
               key := ((eraseFix ctx q dir fCtx).2.1).key, dir := dir,
               sib := getLink (eraseFix ctx q dir fCtx).2.1 (!dir) },
             by rw [h1], h2, h3⟩)))
      · have hle := eraseFix_size_le ctx q dir fCtx
        have hlt : ((eraseFix ctx q dir fCtx).2.1.getLink dir).size <
            (eraseFix ctx q dir fCtx).2.1.size := size_getLink_lt _ dir hne'
        rw [hch] at hlt
        omega

/-- `jsw_rberase` on a tree satisfying the red-black invariants yields a
tree satisfying them again. -/
theorem jsw_rberase_isRB (t : Rbnode) (k : Int) (hRB : isRB t) :
    isRB (jsw_rberase t k).2 := by
  cases t with
  | nil => exact hRB
  | node c l rk r =>
    rw [isRB_iff_balanced] at hRB
    obtain ⟨n, hbal⟩ := hRB
    obtain ⟨c2, n2, hb2⟩ := eraseLoop_balanced k ((Rbnode.node c l rk r).size + 1)
      [] (.node c l rk r) (decide (node_cmp rk k < 0)) (decide (node_cmp rk k = 0))
      none false n false n hbal .nil (by intro h; cases h)
      (Or.inr (Or.inr (Or.inr (Or.inl rfl)))) (by omega)
    obtain ⟨n3, hb3⟩ := setRed_false_balanced hb2
    rw [isRB_iff_balanced]
    exact ⟨n3, hb3⟩

/-! ## Claim C8: the cursor stack stays within HEIGHT_LIMIT -/

/-- `path` is a chain of strict ancestors of `it` inside the tree rooted
at `root`: the head of the list is `it`'s parent and the last element is
the root.  This is what the cursor's explicit stack holds. -/
def Anc (root : Rbnode) : List Rbnode → Rbnode → Prop
  | [], it => root = it
  | p :: rest, it => p ≠ .nil ∧ (∃ d, getLink p d = it) ∧ Anc root rest p

/-- The cursor-state invariant: either exhausted (empty current node), or
the stack is the ancestor chain of the current node. -/
def TravInv (t : Rbnode) (tr : JswRbtrav) : Prop :=
  tr.it = .nil ∨ Anc t tr.path tr.it

theorem height_getLink_lt (t : Rbnode) (d : Bool) (h : t ≠ .nil) :
    (getLink t d).height < t.height := by
  cases t with
  | nil => exact absurd rfl h
  | node c l k r =>
    cases d with
    | false =>
      exact lt_of_le_of_lt (Nat.le_max_left _ _) (Nat.lt_succ_self _)
    | true =>
      exact lt_of_le_of_lt (Nat.le_max_right _ _) (Nat.lt_succ_self _)

theorem height_pos (t : Rbnode) (h : t ≠ .nil) : 1 ≤ t.height := by
  cases t with
  | nil => exact absurd rfl h
  | node c l k r => exact Nat.succ_le_succ (Nat.zero_le _)

theorem Anc_height (root : Rbnode) :
    ∀ (path : List Rbnode) (it : Rbnode),
      Anc root path it → it.height + path.length ≤ root.height := by
  intro path
  induction path with
  | nil =>
    intro it h
    unfold Anc at h
    subst h
    simp
  | cons p rest ih =>
    intro it h
    obtain ⟨hp, ⟨d, hd⟩, hrest⟩ := h
    have h1 := ih p hrest
    have h2 : it.height < p.height := hd ▸ height_getLink_lt p d hp
    simp only [List.length_cons]
    omega

theorem walkDown_inv (root : Rbnode) (dir : Bool) :
    ∀ (it : Rbnode) (path : List Rbnode), it ≠ .nil → Anc root path it →
      (walkDown dir it path).it ≠ .nil ∧
        Anc root (walkDown dir it path).path (walkDown dir it path).it := by
  intro it
  induction it with
  | nil => intro path h; exact absurd rfl h
  | node c l k r ihl ihr =>
    intro path _ hanc
    cases dir with
    | false =>
      cases l with
      | nil => exact ⟨by simp [walkDown], by simpa [walkDown] using hanc⟩
      | node c2 l2 k2 r2 =>
        have hstep : Anc root (Rbnode.node c (.node c2 l2 k2 r2) k r :: path)
            (Rbnode.node c2 l2 k2 r2) := ⟨by simp, ⟨false, rfl⟩, hanc⟩
        exact ihl _ (by simp) hstep
    | true =>
      cases r with
      | nil => exact ⟨by simp [walkDown], by simpa [walkDown] using hanc⟩
      | node c2 l2 k2 r2 =>
        have hstep : Anc root (Rbnode.node c l k (.node c2 l2 k2 r2) :: path)
            (Rbnode.node c2 l2 k2 r2) := ⟨by simp, ⟨true, rfl⟩, hanc⟩
        exact ihr _ (by simp) hstep

theorem moveUp_inv (root : Rbnode) (dir : Bool) :
    ∀ (path : List Rbnode) (last : Rbnode), Anc root path last →
      TravInv root (moveUp dir last path) ∧
        (moveUp dir last path).path.length ≤ path.length := by
  intro path
  induction path with
  | nil => intro last _; exact ⟨Or.inl rfl, le_refl _⟩
  | cons p rest ih =>
    intro last h
    obtain ⟨hp, _, hrest⟩ := h
    unfold moveUp
    split
    · obtain ⟨h1, h2⟩ := ih p hrest
      exact ⟨h1, le_trans h2 (Nat.le_succ _)⟩
    · exact ⟨Or.inr hrest, Nat.le_succ _⟩

/-- C8: on a tree satisfying the balance invariants whose height is within
the maximum supported tree height (HEIGHT_LIMIT = 64; by the balance
invariants, height at most `2*log2(n+1)`, so 64 covers any realistic
size), the cursor's path stack always remains the strict-ancestor chain of
the current node, and its length — and therefore every index written by a
push inside `start` or `move` (the stack only grows monotonically during
the extreme-seeking walks, so the final length bounds every intermediate
write) — stays strictly below 64: no access to `path[HEIGHT_LIMIT]` is out
of bounds. -/
theorem claim_C8 (t : Rbnode) (tr : JswRbtrav) (d : Bool) (tr2 : JswRbtrav)
    (hrb : isRB t) (hh : t.height ≤ 64) :
    (TravInv t (start t d) ∧ (start t d).path.length < 64) ∧
    (TravInv t tr → move tr d = some tr2 →
      TravInv t tr2 ∧ tr2.path.length < 64) := by
  have hboundAnc : ∀ (path : List Rbnode) (it : Rbnode), it ≠ .nil →
      Anc t path it → path.length < 64 := by
    intro path it hit hanc
    have h1 := Anc_height t path it hanc
    have h2 := height_pos it hit
    omega
  constructor
  · cases ht : t with
    | nil =>
      constructor
      · cases d <;> exact Or.inl rfl
      · cases d <;> simp [start, walkDown]
    | node c l k r =>
      have h0 : Anc t [] t := rfl
      rw [← ht]
      obtain ⟨h1, h2⟩ := walkDown_inv t d t [] (by rw [ht]; simp) h0
      exact ⟨Or.inr h2, hboundAnc _ _ h1 h2⟩
  · intro hinv hmove
    rcases tr with ⟨path, it⟩
    cases it with
    | nil => exact absurd hmove (by simp [move])
    | node c l k r =>
      have hanc : Anc t path (Rbnode.node c l k r) := by
        rcases hinv with h | h
        · exact absurd h (by simp)
        · exact h
      simp only [move] at hmove
      split at hmove
      · -- descend branch: push the current node and walk to the extreme
        rename_i hne
        have hstep : Anc t (Rbnode.node c l k r :: path)
            (getLink (Rbnode.node c l k r) d) :=
          ⟨by simp, ⟨d, rfl⟩, hanc⟩
        obtain ⟨h1, h2⟩ := walkDown_inv t (!d) _ _ hne hstep
        cases hmove
        exact ⟨Or.inr h2, hboundAnc _ _ h1 h2⟩
      · -- pop branch: the stack only shrinks
        obtain ⟨h1, h2⟩ := moveUp_inv t d path (Rbnode.node c l k r) hanc
        cases hmove
        refine ⟨h1, lt_of_le_of_lt h2 ?_⟩
        exact hboundAnc _ _ (by simp) hanc

theorem claim_C8_witness :
    isRB (Rbnode.node false Rbnode.nil 0 Rbnode.nil) ∧
    (Rbnode.node false Rbnode.nil 0 Rbnode.nil).height ≤ 64 ∧
    ((TravInv (Rbnode.node false Rbnode.nil 0 Rbnode.nil)
        (start (Rbnode.node false Rbnode.nil 0 Rbnode.nil) false) ∧
      (start (Rbnode.node false Rbnode.nil 0 Rbnode.nil) false).path.length < 64) ∧
    (TravInv (Rbnode.node false Rbnode.nil 0 Rbnode.nil) ⟨[], Rbnode.nil⟩ →
      move ⟨[], Rbnode.nil⟩ true = some ⟨[], Rbnode.nil⟩ →
      TravInv (Rbnode.node false Rbnode.nil 0 Rbnode.nil) ⟨[], Rbnode.nil⟩ ∧
        ([] : List Rbnode).length < 64)) :=
  ⟨by decide, by decide,
    claim_C8 (Rbnode.node false Rbnode.nil 0 Rbnode.nil) ⟨[], Rbnode.nil⟩ true
      ⟨[], Rbnode.nil⟩ (by decide) (by decide)⟩

/-! ## Sequences of operations -/

/-- A tree-mutating operation of the public interface. -/
inductive Op where
  | ins (k : Int)
  | ers (k : Int)
deriving DecidableEq, Repr

/-- Run a list of operations starting from `t` (`none` when an insertion
transcription runs out of fuel). -/
def runOps (fuel : Nat) : List Op → Rbnode → Option Rbnode
  | [], t => some t
  | .ins k :: ops, t =>
    match jsw_rbinsert fuel t k with
    | none => none
    | some r => runOps fuel ops r.2
  | .ers k :: ops, t => runOps fuel ops (jsw_rberase t k).2

/-- Whether key `k` has been inserted and not erased since, according to
the sequence of operations alone. -/
def present (ops : List Op) (k : Int) : Bool :=
  ops.foldl (fun b op =>
    match op with
    | .ins k2 => b || decide (k2 = k)
    | .ers k2 => b && !decide (k2 = k)) false

/-! ## Claim C7: the subtraction comparison wraps and misorders -/

/-- C7: there are representable keys `a < b` (true integer order, both in
`[-2^31, 2^31)`) for which the wrapped subtraction of `node_cmp` reports
the opposite ordering: without wrap-around the comparison would be
`b - a > 0`, but `node_cmp a b < 0`; moreover `node_cmp b a < 0` as well,
so the hardcoded comparison is not even antisymmetric and realizes no
total order over the representable keys. -/
theorem claim_C7 :
    ∃ a b : Int, -2 ^ 31 ≤ a ∧ a < b ∧ b < 2 ^ 31 ∧ 0 < b - a ∧
      node_cmp a b < 0 ∧ node_cmp b a < 0 :=
  ⟨-1, 2 ^ 31 - 1, by decide⟩

/-! ## Claim C10: erasing from the empty tree -/

/-- C10: on the empty tree `jsw_rberase` returns 1 and performs no
modification at all: the entire fixup and unlink pass is behind the
`tree->root != NULL` test and is skipped, and the tree stays empty. -/
theorem claim_C10 (k : Int) : jsw_rberase Rbnode.nil k = (1, Rbnode.nil) := rfl

/-! ## Claim C2: cursor traversal direction (failing input) -/

/-- C2 (failing input): on the tree holding keys {0, 1} (as built by
inserting 0 then 1 into the empty tree), the cursor seeded with
`jsw_rbtfirst` starts at key 1 — the maximum, although the code documents
it as "the smallest valued node" — and `jsw_rbtnext` then yields 0, so
the first/next traversal emits the strictly decreasing sequence [1, 0]
instead of the claimed increasing sequence [0, 1]; symmetrically
`jsw_rbtlast`/`jsw_rbtprev` emit [0, 1].  The cause: `node_cmp` computes
`n2->key - n1->key`, which inverts every descent decision relative to the
direction convention the traversal code assumes. -/
theorem claim_C2 :
    runOps 10 [.ins 0, .ins 1] Rbnode.nil =
      some (Rbnode.node false (Rbnode.node true Rbnode.nil 1 Rbnode.nil) 0 Rbnode.nil) ∧
    travKeys true 10 (jsw_rbtfirst
      (Rbnode.node false (Rbnode.node true Rbnode.nil 1 Rbnode.nil) 0 Rbnode.nil)) = [1, 0] ∧
    travKeys false 10 (jsw_rbtlast
      (Rbnode.node false (Rbnode.node true Rbnode.nil 1 Rbnode.nil) 0 Rbnode.nil)) = [0, 1] := by
  refine ⟨?_, ?_, ?_⟩ <;> rfl

/-! ## Claim C6: insert return value -/

/-- C6 (counterexample): inserting a key that is already present in the
tree returns 1, not the failure the claim requires for an existing key. -/
theorem claim_C6_counterexample :
    jsw_rbinsert 10 (Rbnode.node false Rbnode.nil 5 Rbnode.nil) 5 =
      some (1, Rbnode.node false Rbnode.nil 5 Rbnode.nil) := rfl

/-- C6 (amended): every completed `jsw_rbinsert` call returns 1, whether
or not a new key was attached: `new_node` cannot fail because allocation
is caller-side, and a duplicate key takes the no-op break path which also
returns 1 rather than reporting a distinct failure. -/
theorem claim_C6 (fuel : Nat) (t : Rbnode) (k : Int) (r : Int × Rbnode)
    (h : jsw_rbinsert fuel t k = some r) : r.1 = 1 := by
  cases t with
  | nil =>
    simp only [jsw_rbinsert] at h
    cases h; rfl
  | node c l k0 r0 =>
    simp only [jsw_rbinsert] at h
    cases hl : insLoop k fuel [] (.node c l k0 r0) with
    | none => rw [hl] at h; cases h
    | some v => rw [hl] at h; cases h; rfl

theorem claim_C6_witness :
    jsw_rbinsert 5 Rbnode.nil 3 = some (1, Rbnode.node false Rbnode.nil 3 Rbnode.nil) ∧
    ((1 : Int), Rbnode.node false Rbnode.nil 3 Rbnode.nil).1 = 1 :=
  ⟨rfl, claim_C6 5 Rbnode.nil 3 (1, Rbnode.node false Rbnode.nil 3 Rbnode.nil) rfl⟩

/-! ## Claim C5: erasing an absent key (counterexample) -/

/-- C5 (counterexample): this tree satisfies the red-black invariants and
does not contain the key 0, yet `jsw_rberase` on key 0, while returning 1,
does not leave the tree byte-for-byte unchanged: the "push a red node
down" pass rotates and recolors during the unsuccessful search (the tree
is reachable by inserting 2, 1, 3, 4 into the empty tree). -/
theorem claim_C5_counterexample :
    runOps 10 [.ins 2, .ins 1, .ins 3, .ins 4] Rbnode.nil =
      some (Rbnode.node false (Rbnode.node false (Rbnode.node true Rbnode.nil 4 Rbnode.nil) 3
        Rbnode.nil) 2 (Rbnode.node false Rbnode.nil 1 Rbnode.nil)) ∧
    isRB (Rbnode.node false (Rbnode.node false (Rbnode.node true Rbnode.nil 4 Rbnode.nil) 3
      Rbnode.nil) 2 (Rbnode.node false Rbnode.nil 1 Rbnode.nil)) ∧
    jsw_rbfind (Rbnode.node false (Rbnode.node false (Rbnode.node true Rbnode.nil 4 Rbnode.nil) 3
      Rbnode.nil) 2 (Rbnode.node false Rbnode.nil 1 Rbnode.nil)) 0 = none ∧
    (jsw_rberase (Rbnode.node false (Rbnode.node false (Rbnode.node true Rbnode.nil 4 Rbnode.nil) 3
      Rbnode.nil) 2 (Rbnode.node false Rbnode.nil 1 Rbnode.nil)) 0).1 = 1 ∧
    (jsw_rberase (Rbnode.node false (Rbnode.node false (Rbnode.node true Rbnode.nil 4 Rbnode.nil) 3
      Rbnode.nil) 2 (Rbnode.node false Rbnode.nil 1 Rbnode.nil)) 0).2 ≠
      Rbnode.node false (Rbnode.node false (Rbnode.node true Rbnode.nil 4 Rbnode.nil) 3
        Rbnode.nil) 2 (Rbnode.node false Rbnode.nil 1 Rbnode.nil) := by
  refine ⟨rfl, by decide, rfl, rfl, by decide⟩

/-! ## Claim C4: inserting a duplicate key (counterexample) -/

/-- C4 (counterexample): this tree satisfies the red-black invariants and
contains the key 2 (it is reachable by inserting 2, 1, 3), yet inserting
key 2 again, while attaching no node, does modify the tree: the proactive
color flip at the root recolors both children before the duplicate is
detected, so links/colors are not left untouched. -/
theorem claim_C4_counterexample :
    runOps 10 [.ins 2, .ins 1, .ins 3] Rbnode.nil =
      some (Rbnode.node false (Rbnode.node true Rbnode.nil 3 Rbnode.nil) 2
        (Rbnode.node true Rbnode.nil 1 Rbnode.nil)) ∧
    isRB (Rbnode.node false (Rbnode.node true Rbnode.nil 3 Rbnode.nil) 2
      (Rbnode.node true Rbnode.nil 1 Rbnode.nil)) ∧
    jsw_rbinsert 10 (Rbnode.node false (Rbnode.node true Rbnode.nil 3 Rbnode.nil) 2
      (Rbnode.node true Rbnode.nil 1 Rbnode.nil)) 2 =
      some (1, Rbnode.node false (Rbnode.node false Rbnode.nil 3 Rbnode.nil) 2
        (Rbnode.node false Rbnode.nil 1 Rbnode.nil)) ∧
    Rbnode.node false (Rbnode.node false Rbnode.nil 3 Rbnode.nil) 2
        (Rbnode.node false Rbnode.nil 1 Rbnode.nil) ≠
      Rbnode.node false (Rbnode.node true Rbnode.nil 3 Rbnode.nil) 2
        (Rbnode.node true Rbnode.nil 1 Rbnode.nil) := by
  refine ⟨rfl, by decide, rfl, by decide⟩

/-! ## Claim C3: find after a sequence of operations (counterexample) -/

/-- C3 (counterexample): after this completed sequence — all insertions
succeed and the erase targets the never-inserted key -5 — the key
-2^31 + 1 has been inserted and never erased and is still stored in the
tree, yet `jsw_rbfind` reports it absent: the wrapped comparisons put the
full-range keys in a cyclic order, and the rotations performed by the
erase pass separate the search path from the node's actual position. -/
theorem claim_C3_counterexample :
    runOps 100 [.ins (-2 ^ 31), .ins (-2 ^ 31 + 1), .ins 0, .ins 1,
        .ins (2 ^ 31 - 1), .ins (2 ^ 31 - 2), .ers (-5)] Rbnode.nil =
      some (Rbnode.node false
        (Rbnode.node true
          (Rbnode.node false (Rbnode.node true Rbnode.nil (-2 ^ 31 + 1) Rbnode.nil)
            (-2 ^ 31) Rbnode.nil)
          (2 ^ 31 - 1)
          (Rbnode.node false Rbnode.nil (2 ^ 31 - 2) Rbnode.nil))
        1 (Rbnode.node false Rbnode.nil 0 Rbnode.nil)) ∧
    present [.ins (-2 ^ 31), .ins (-2 ^ 31 + 1), .ins 0, .ins 1,
        .ins (2 ^ 31 - 1), .ins (2 ^ 31 - 2), .ers (-5)] (-2 ^ 31 + 1) = true ∧
    (-2 ^ 31 + 1) ∈ (Rbnode.node false
        (Rbnode.node true
          (Rbnode.node false (Rbnode.node true Rbnode.nil (-2 ^ 31 + 1) Rbnode.nil)
            (-2 ^ 31) Rbnode.nil)
          (2 ^ 31 - 1)
          (Rbnode.node false Rbnode.nil (2 ^ 31 - 2) Rbnode.nil))
        1 (Rbnode.node false Rbnode.nil 0 Rbnode.nil)).inorder1 ∧
    jsw_rbfind (Rbnode.node false
        (Rbnode.node true
          (Rbnode.node false (Rbnode.node true Rbnode.nil (-2 ^ 31 + 1) Rbnode.nil)
            (-2 ^ 31) Rbnode.nil)
          (2 ^ 31 - 1)
          (Rbnode.node false Rbnode.nil (2 ^ 31 - 2) Rbnode.nil))
        1 (Rbnode.node false Rbnode.nil 0 Rbnode.nil)) (-2 ^ 31 + 1) = none := by
  refine ⟨by decide, by decide, by decide, by decide⟩

/-! ## Lemmas: plugging and in-order sequences -/

theorem inorder1_setRed (t : Rbnode) (b : Bool) :
    (setRed t b).inorder1 = t.inorder1 := by
  cases t <;> rfl

theorem plugCrumb_inorder1 (c : Crumb) (t1 t2 : Rbnode)
    (h : t1.inorder1 = t2.inorder1) :
    (plugCrumb c t1).inorder1 = (plugCrumb c t2).inorder1 := by
  unfold plugCrumb
  cases c.dir <;> simp [Rbnode.inorder1, h]

theorem plug_inorder1 (ctx : List Crumb) (t1 t2 : Rbnode)
    (h : t1.inorder1 = t2.inorder1) :
    (plug ctx t1).inorder1 = (plug ctx t2).inorder1 := by
  induction ctx generalizing t1 t2 with
  | nil => exact h
  | cons c ctx ih => exact ih _ _ (plugCrumb_inorder1 c t1 t2 h)

theorem mem_inorder1_plugCrumb (c : Crumb) (t : Rbnode) (x : Int)
    (h : x ∈ t.inorder1) : x ∈ (plugCrumb c t).inorder1 := by
  unfold plugCrumb
  cases c.dir <;> simp [Rbnode.inorder1] <;> tauto

theorem mem_inorder1_plug (ctx : List Crumb) (t : Rbnode) (x : Int)
    (h : x ∈ t.inorder1) : x ∈ (plug ctx t).inorder1 := by
  induction ctx generalizing t with
  | nil => exact h
  | cons c ctx ih => exact ih _ (mem_inorder1_plugCrumb c t x h)

theorem plugCrumb_reconstruct (t : Rbnode) (d : Bool) (h : t ≠ .nil) :
    plugCrumb { red := is_red t, key := t.key, dir := d, sib := getLink t (!d) }
      (getLink t d) = t := by
  cases t with
  | nil => exact absurd rfl h
  | node c l k r => cases d <;> rfl

theorem node_cmp_zero_iff (a b : Int) (ha1 : -2 ^ 31 ≤ a) (ha2 : a < 2 ^ 31)
    (hb1 : -2 ^ 31 ≤ b) (hb2 : b < 2 ^ 31) : node_cmp a b = 0 ↔ b = a := by
  unfold node_cmp wrap32
  omega

/-! ## Lemmas: the erase pass preserves the in-order key sequence until
the final unlink -/

theorem eraseFix_fCtx_none (ctx : List Crumb) (q : Rbnode) (dir : Bool) :
    (eraseFix ctx q dir none).2.2 = none := by
  unfold eraseFix
  split
  · split
    · split <;> rfl
    · split
      · rfl
      · split
        · rfl
        · split
          · rfl
          · split
            · split <;> rfl
            · rfl
  · rfl

theorem eraseFix_inorder1 (ctx : List Crumb) (q : Rbnode) (dir : Bool)
    (fCtx : Option Nat) :
    (plug (eraseFix ctx q dir fCtx).1 (eraseFix ctx q dir fCtx).2.1).inorder1 =
      (plug ctx q).inorder1 := by
  unfold eraseFix
  split
  · split
    · -- case (a): single rotation at q
      split
      · rfl
      · rename_i hs
        cases q with
        | nil => exact absurd hs (by simp [getLink])
        | node qc ql qk qr =>
          simp only [plug]
          apply plug_inorder1
          cases dir <;>
            simp_all [getLink, setLink, setRed, plugCrumb, Rbnode.inorder1] <;>
            simp [List.append_assoc]
    · -- cases (b) and (c): look at the sibling s = p->link[!last]
      split
      · rfl
      · rename_i pC rest
        rcases hsib : pC.sib with _ | ⟨sc, ssl, ssk, ssr⟩
        · simp
        · simp only [if_neg (by simp : ¬(Rbnode.node sc ssl ssk ssr = Rbnode.nil))]
          split
          · -- case (b): color flip only
            simp only [plug]
            apply plug_inorder1
            unfold plugCrumb
            cases pC.dir <;> simp [Rbnode.inorder1, inorder1_setRed, hsib]
          · split
            · -- case (c), double rotation
              split
              · rfl
              · rename_i hs2
                simp only [plug]
                apply plug_inorder1
                cases hd : pC.dir <;> rw [hd] at hs2 <;>
                  simp_all [getLink, setLink, plugCrumb, Rbnode.inorder1,
                    inorder1_setRed, hsib] <;>
                  simp [List.append_assoc]
            · -- case (c), single rotation
              simp only [plug]
              apply plug_inorder1
              cases hd : pC.dir <;>
                simp_all [getLink, setLink, plugCrumb, Rbnode.inorder1,
                  inorder1_setRed, Rbnode.key, hsib] <;>
                simp [List.append_assoc]
  · rfl

theorem mem_inorder1_node_self (c : Bool) (l : Rbnode) (k : Int) (r : Rbnode) :
    k ∈ (Rbnode.node c l k r).inorder1 := by
  simp [Rbnode.inorder1]

/-- While no node with matching data has been seen (`f == NULL`), the erase
loop only rotates and recolors: the in-order key sequence of the whole tree
is untouched, and `f` stays `NULL` as long as no visited key matches. -/
theorem eraseLoop_absent_inorder1 (k : Int) :
    ∀ (fuel : Nat) (ctx : List Crumb) (q : Rbnode) (dir : Bool),
      (∀ x ∈ (plug ctx q).inorder1, node_cmp x k ≠ 0) →
      (eraseLoop k fuel ctx q dir false none).inorder1 = (plug ctx q).inorder1 := by
  intro fuel
  induction fuel with
  | zero => intro ctx q dir h; rfl
  | succ n ih =>
    intro ctx q dir h
    unfold eraseLoop
    have hf := eraseFix_fCtx_none ctx q dir
    have hi := eraseFix_inorder1 ctx q dir none
    rcases hfx : eraseFix ctx q dir none with ⟨ctx1, q1, fCtx1⟩
    rw [hfx] at hf hi
    simp only at hf hi ⊢
    subst hf
    split
    · exact hi
    · rename_i c2 l2 qk2 r2 hq1
      have hq1nil : q1 ≠ .nil := by
        intro hcon; rw [hcon] at hq1; simp [getLink] at hq1
      have hrec : plugCrumb
          { red := is_red q1, key := q1.key, dir := dir, sib := getLink q1 (!dir) }
          (Rbnode.node c2 l2 qk2 r2) = q1 := by
        rw [← hq1]; exact plugCrumb_reconstruct q1 dir hq1nil
      have hplug : (plug ({ red := is_red q1, key := q1.key, dir := dir, sib := getLink q1 (!dir) } :: ctx1) (Rbnode.node c2 l2 qk2 r2)).inorder1 = (plug ctx q).inorder1 := by
        simp only [plug]
        rw [hrec]
        exact hi
      have hqk2 : node_cmp qk2 k ≠ 0 := by
        apply h
        rw [← hplug]
        exact mem_inorder1_plug _ _ _ (mem_inorder1_node_self c2 l2 qk2 r2)
      simp only [decide_eq_false hqk2, if_neg hqk2, Bool.false_eq_true,
        if_false]
      exact (ih _ _ _ (by rw [hplug]; exact h)).trans hplug

/-! ## Claim C5: erasing an absent key (amended universal statement) -/

/-- C5 (amended): for every tree whose keys are representable `int` values
and every absent representable key `k`, `jsw_rberase` returns 1 and leaves
the tree's key set — indeed its whole in-order key sequence — unchanged:
no node is spliced out.  (The byte-for-byte part of the original claim is
refuted by `claim_C5_counterexample`: the descent may rotate and recolor
even on an unsuccessful search.) -/
theorem claim_C5 (t : Rbnode) (k : Int)
    (hrange : ∀ x ∈ t.inorder1, -2 ^ 31 ≤ x ∧ x < 2 ^ 31)
    (hk1 : -2 ^ 31 ≤ k) (hk2 : k < 2 ^ 31)
    (habs : k ∉ t.inorder1) :
    (jsw_rberase t k).1 = 1 ∧ (jsw_rberase t k).2.inorder1 = t.inorder1 := by
  cases t with
  | nil => exact ⟨rfl, rfl⟩
  | node c l k0 r =>
    refine ⟨rfl, ?_⟩
    have hcmp : ∀ x ∈ (Rbnode.node c l k0 r).inorder1, node_cmp x k ≠ 0 := by
      intro x hx hzero
      obtain ⟨h1, h2⟩ := hrange x hx
      rw [node_cmp_zero_iff x k h1 h2 hk1 hk2] at hzero
      exact habs (hzero ▸ hx)
    have hfq : decide (node_cmp k0 k = 0) = false :=
      decide_eq_false (hcmp k0 (mem_inorder1_node_self c l k0 r))
    simp only [jsw_rberase, inorder1_setRed, hfq]
    exact eraseLoop_absent_inorder1 k _ [] _ _ hcmp

theorem claim_C5_witness :
    ((jsw_rberase (Rbnode.node false Rbnode.nil 7 Rbnode.nil) 3).1 = 1 ∧
      (jsw_rberase (Rbnode.node false Rbnode.nil 7 Rbnode.nil) 3).2.inorder1 =
        (Rbnode.node false Rbnode.nil 7 Rbnode.nil).inorder1) :=
  claim_C5 (Rbnode.node false Rbnode.nil 7 Rbnode.nil) 3 (by decide) (by decide)
    (by decide) (by decide)

/-! ## Claim C9: stepping requires a non-empty current node -/

/-- C9: `move` dereferences the cursor's current node before any
emptiness check (line 397), so a step is defined exactly when the current
node is non-empty: under that precondition the call always produces a
result, and a call with an empty current node (after exhaustion, or after
seeding on an empty tree) is outside the defined interface — modelled by
`none`. -/
theorem claim_C9 (tr : JswRbtrav) (dir : Bool) :
    (move tr dir).isSome = true ↔ tr.it ≠ Rbnode.nil := by
  rcases tr with ⟨path, it⟩
  cases it with
  | nil => simp [move]
  | node c l k r =>
    simp only [move]
    split <;> simp

/-- **C1.** For every tree satisfying the red-black invariants (including
the empty tree), after every completed `jsw_rbinsert` call and after every
`jsw_rberase` call the resulting tree satisfies all three balance
invariants: the root, if present, is black; no red node has a red child;
and every path from the root to an absent child crosses the same number
of black nodes (`isRB`). -/
theorem claim_C1 (t : Rbnode) (k : Int) (hRB : isRB t) :
    (∀ fuel res, jsw_rbinsert fuel t k = some res → isRB res.2) ∧
    isRB (jsw_rberase t k).2 :=
  ⟨fun fuel res h => jsw_rbinsert_isRB fuel t k res hRB h,
   jsw_rberase_isRB t k hRB⟩

/-- C1 exercised at a concrete balanced tree and key. -/
theorem claim_C1_witness :
    isRB (Rbnode.node false (Rbnode.node true Rbnode.nil 1 Rbnode.nil) 2
      (Rbnode.node true Rbnode.nil 3 Rbnode.nil)) ∧
    ((∀ fuel res, jsw_rbinsert fuel (Rbnode.node false
        (Rbnode.node true Rbnode.nil 1 Rbnode.nil) 2
        (Rbnode.node true Rbnode.nil 3 Rbnode.nil)) 2 = some res → isRB res.2) ∧
      isRB (jsw_rberase (Rbnode.node false
        (Rbnode.node true Rbnode.nil 1 Rbnode.nil) 2
        (Rbnode.node true Rbnode.nil 3 Rbnode.nil)) 2).2) :=
  ⟨by decide, claim_C1 _ 2 (by decide)⟩

end RbBench

